import Mathlib

/-!
Verification of the Jigsaw Cryptography core (`jigsaw.py`, `jsc.py`).

Modelling conventions (shallow embedding):
* Python strings are `List Char` (`Str`); byte streams are `List Nat` (`Bytes`).
* The key file is modelled as the list of its text lines; the source writes
  every line with a trailing `'\n'` and the reader's `x[:-1]` removes exactly
  that newline, so a line of the model is the written text without the newline.
  Honesty of the line model is kept by `'\n'`-freeness hypotheses on the data
  that flows into lines.
* Fragment files on disk form a `Store`, an association list from full path
  to byte content; a write prepends (later writes shadow earlier ones, which
  models overwriting), a read returns the first match.
* `hashlib` digests are abstract function parameters (the source keeps the
  block hash as a configurable class attribute `JigsawCore.hash`); no claim
  depends on concrete digest values.
* Randomness is modelled by explicit streams: `cand : Nat -> Str` is the
  stream of candidate file names produced by the `random.choice` draws of
  `_generateFilename`, and `draw : Nat -> Nat` is the stream of values
  `int(random.random() * (max_block_size - min_block_size))` consumed by
  `unevenSlicer`.
* Exceptions (`KeyError`, `IndexError`, `ValueError` from `int()`, missing
  files) are modelled by `Option`: `none` means the Python run raises.
-/

abbrev Str := List Char

abbrev Bytes := List Nat

/-- ASCII whitespace stripped by Python's `str.strip()`. -/
def isWS (c : Char) : Bool :=
  c = ' ' || c = '\t' || c = '\n' || c = '\r' || c = Char.ofNat 11 || c = Char.ofNat 12

/-- Strip trailing whitespace (the right half of Python `str.strip()`). -/
def rstripWS (s : Str) : Str :=
  (s.reverse.dropWhile isWS).reverse

/-- Python `str.strip()`: drop leading and trailing whitespace. -/
def pyStrip (s : Str) : Str :=
  rstripWS (s.dropWhile isWS)

/-- Python `s.split('>>')` for the key-file delimiter `'>>'` used throughout
`jigsaw.py`: leftmost, non-overlapping matches cut the string. -/
def splitDelim : Str → List Str
  | [] => [[]]
  | [c] => [[c]]
  | c :: d :: rest =>
    if c = '>' ∧ d = '>' then [] :: splitDelim rest
    else (c :: (splitDelim (d :: rest)).headD []) :: (splitDelim (d :: rest)).tail

/-- Python `'>>'.join(fields)`. -/
def joinDelim : List Str → Str
  | [] => []
  | [x] => x
  | x :: y :: t => x ++ '>' :: '>' :: joinDelim (y :: t)

/-- Decimal digit character, as produced by Python `str()` on a digit. -/
def digitChar : Nat → Char
  | 0 => '0' | 1 => '1' | 2 => '2' | 3 => '3' | 4 => '4'
  | 5 => '5' | 6 => '6' | 7 => '7' | 8 => '8' | _ => '9'

def natDigitsGo : Nat → Nat → Str
  | 0, n => [digitChar n]
  | fuel + 1, n =>
    if n < 10 then [digitChar n]
    else natDigitsGo fuel (n / 10) ++ [digitChar (n % 10)]

/-- Python `str(n)` for a non-negative integer `n` (fuel-structured so that it
reduces in the kernel; `natDigits_eq` below is the defining recurrence). -/
def natDigits (n : Nat) : Str := natDigitsGo n n

lemma natDigitsGo_congr : ∀ fuel₁ fuel₂ n, n ≤ fuel₁ → n ≤ fuel₂ →
    natDigitsGo fuel₁ n = natDigitsGo fuel₂ n := by
  intro fuel₁
  induction fuel₁ with
  | zero =>
    intro fuel₂ n h₁ _
    interval_cases n
    cases fuel₂ <;> simp [natDigitsGo]
  | succ f ih =>
    intro fuel₂ n h₁ h₂
    by_cases hn : n < 10
    · cases fuel₂ <;> simp_all [natDigitsGo]
    · cases fuel₂ with
      | zero => omega
      | succ f₂ =>
        simp only [natDigitsGo, if_neg hn]
        congr 1
        exact ih f₂ (n / 10) (by omega) (by omega)

lemma natDigits_eq (n : Nat) : natDigits n =
    if n < 10 then [digitChar n]
    else natDigits (n / 10) ++ [digitChar (n % 10)] := by
  unfold natDigits
  by_cases h : n < 10
  · rw [if_pos h]
    cases n with
    | zero => rfl
    | succ m => simp [natDigitsGo, h]
  · rw [if_neg h]
    cases n with
    | zero => omega
    | succ m =>
      simp only [natDigitsGo, if_neg h]
      congr 1
      exact natDigitsGo_congr m ((m + 1) / 10) ((m + 1) / 10) (by omega) (by omega)

/-- Python `str(i)` for an `int`. -/
def intStr (i : Int) : Str :=
  if i < 0 then '-' :: natDigits i.natAbs else natDigits i.toNat

/-- Numeric value of a decimal digit character. -/
def digitVal (c : Char) : Option Nat :=
  if '0' ≤ c ∧ c ≤ '9' then some (c.toNat - 48) else none

def parseDigitsAux : Nat → Str → Option Nat
  | acc, [] => some acc
  | acc, c :: cs =>
    match digitVal c with
    | some d => parseDigitsAux (acc * 10 + d) cs
    | none => none

/-- Digits-only parse; the empty string is rejected (as `int('')` raises). -/
def parseDigits (s : Str) : Option Nat :=
  if s = [] then none else parseDigitsAux 0 s

/-- Python `int(s)` on a string: strip whitespace, optional sign, digits;
`none` models the `ValueError` raised on malformed input. -/
def pyInt (s : Str) : Option Int :=
  if (pyStrip s).head? = some '-' then
    (parseDigits (pyStrip s).tail).map (fun n => -(n : Int))
  else if (pyStrip s).head? = some '+' then
    (parseDigits (pyStrip s).tail).map (fun n => (n : Int))
  else (parseDigits (pyStrip s)).map (fun n => (n : Int))

/-- Python slicing `s[:i]` with a possibly negative `int` bound, as used for
hash truncation `hexdigest()[:self.hashlength]`. -/
def pySliceTo (s : Str) (i : Int) : Str :=
  if 0 ≤ i then s.take i.toNat else s.take (s.length - i.natAbs)

/-! ## Block Slicer (`JigsawCore`, jigsaw.py lines 52-111) -/

/-- `JigsawCore.evenSlicer` (jigsaw.py lines 66-84).  The Python generator
runs `block = True; while block: block = f.read(block_size); yield block`,
so the final empty read is itself yielded before the loop stops. -/
def evenSlicerGo : Nat → Nat → Bytes → List Bytes
  | 0, blockSize, file => [file.take blockSize]
  | fuel + 1, blockSize, file =>
    if file.take blockSize = [] then [file.take blockSize]
    else file.take blockSize :: evenSlicerGo fuel blockSize (file.drop blockSize)

def evenSlicer (blockSize : Nat) (file : Bytes) : List Bytes :=
  evenSlicerGo file.length blockSize file

lemma evenSlicerGo_congr : ∀ fuel₁ fuel₂ blockSize (file : Bytes),
    file.length ≤ fuel₁ → file.length ≤ fuel₂ →
    evenSlicerGo fuel₁ blockSize file = evenSlicerGo fuel₂ blockSize file := by
  intro fuel₁
  induction fuel₁ with
  | zero =>
    intro fuel₂ blockSize file h₁ _
    have hfile : file = [] := by
      cases file with
      | nil => rfl
      | cons a l => simp at h₁
    subst hfile
    cases fuel₂ <;> simp [evenSlicerGo]
  | succ f ih =>
    intro fuel₂ blockSize file h₁ h₂
    by_cases hb : file.take blockSize = []
    · cases fuel₂ with
      | zero =>
        have hfile : file = [] := by
          cases file with
          | nil => rfl
          | cons a l => simp at h₂
        subst hfile
        simp [evenSlicerGo]
      | succ f₂ => simp [evenSlicerGo, hb]
    · have hlen : 0 < file.length := by
        simp only [List.take_eq_nil_iff] at hb
        push_neg at hb
        exact List.length_pos.mpr hb.2
      have hbs : blockSize ≠ 0 := by
        simp only [List.take_eq_nil_iff] at hb
        push_neg at hb
        exact hb.1
      cases fuel₂ with
      | zero => omega
      | succ f₂ =>
        simp only [evenSlicerGo, if_neg hb]
        congr 1
        exact ih f₂ blockSize (file.drop blockSize)
          (by simp only [List.length_drop]; omega)
          (by simp only [List.length_drop]; omega)

lemma evenSlicer_eq (blockSize : Nat) (file : Bytes) : evenSlicer blockSize file =
    if file.take blockSize = [] then [file.take blockSize]
    else file.take blockSize :: evenSlicer blockSize (file.drop blockSize) := by
  unfold evenSlicer
  by_cases hb : file.take blockSize = []
  · rw [if_pos hb]
    cases hf : file.length with
    | zero => simp [evenSlicerGo]
    | succ m => simp [evenSlicerGo, hb]
  · rw [if_neg hb]
    have hb' := hb
    simp only [List.take_eq_nil_iff] at hb'
    push_neg at hb'
    have hlen : 0 < file.length := List.length_pos.mpr hb'.2
    cases hf : file.length with
    | zero => omega
    | succ m =>
      simp only [evenSlicerGo, if_neg hb]
      congr 1
      apply evenSlicerGo_congr
      · simp only [List.length_drop]
        have := hb'.1
        omega
      · exact le_rfl

/-- `JigsawCore.unevenSlicer` (jigsaw.py lines 86-111).  Each iteration first
draws `block_size = min + int(random.random() * (max - min))` — the drawn
summand is `draw idx` — then reads and yields, the final empty read included. -/
def unevenSlicerGo (draw : Nat → Nat) (minB maxB : Nat) :
    Nat → Nat → Bytes → List Bytes
  | 0, idx, file => [file.take (minB + draw idx)]
  | fuel + 1, idx, file =>
    if file.take (minB + draw idx) = [] then [file.take (minB + draw idx)]
    else
      file.take (minB + draw idx) ::
        unevenSlicerGo draw minB maxB fuel (idx + 1) (file.drop (minB + draw idx))

def unevenSlicer (draw : Nat → Nat) (minB maxB : Nat) (idx : Nat) (file : Bytes) :
    List Bytes :=
  unevenSlicerGo draw minB maxB file.length idx file

lemma unevenSlicerGo_congr (draw : Nat → Nat) (minB maxB : Nat) :
    ∀ fuel₁ fuel₂ idx (file : Bytes),
    file.length ≤ fuel₁ → file.length ≤ fuel₂ →
    unevenSlicerGo draw minB maxB fuel₁ idx file =
      unevenSlicerGo draw minB maxB fuel₂ idx file := by
  intro fuel₁
  induction fuel₁ with
  | zero =>
    intro fuel₂ idx file h₁ _
    have hfile : file = [] := by
      cases file with
      | nil => rfl
      | cons a l => simp at h₁
    subst hfile
    cases fuel₂ <;> simp [unevenSlicerGo]
  | succ f ih =>
    intro fuel₂ idx file h₁ h₂
    by_cases hb : file.take (minB + draw idx) = []
    · cases fuel₂ with
      | zero =>
        have hfile : file = [] := by
          cases file with
          | nil => rfl
          | cons a l => simp at h₂
        subst hfile
        simp [unevenSlicerGo]
      | succ f₂ => simp [unevenSlicerGo, hb]
    · have hb' := hb
      simp only [List.take_eq_nil_iff] at hb'
      push_neg at hb'
      have hlen : 0 < file.length := List.length_pos.mpr hb'.2
      have hsz : minB + draw idx ≠ 0 := hb'.1
      cases fuel₂ with
      | zero => omega
      | succ f₂ =>
        simp only [unevenSlicerGo, if_neg hb]
        congr 1
        exact ih f₂ (idx + 1) (file.drop (minB + draw idx))
          (by simp only [List.length_drop]; omega)
          (by simp only [List.length_drop]; omega)

lemma unevenSlicer_eq (draw : Nat → Nat) (minB maxB : Nat) (idx : Nat) (file : Bytes) :
    unevenSlicer draw minB maxB idx file =
      if file.take (minB + draw idx) = [] then [file.take (minB + draw idx)]
      else
        file.take (minB + draw idx) ::
          unevenSlicer draw minB maxB (idx + 1) (file.drop (minB + draw idx)) := by
  unfold unevenSlicer
  by_cases hb : file.take (minB + draw idx) = []
  · rw [if_pos hb]
    cases hf : file.length with
    | zero => simp [unevenSlicerGo]
    | succ m => simp [unevenSlicerGo, hb]
  · rw [if_neg hb]
    have hb' := hb
    simp only [List.take_eq_nil_iff] at hb'
    push_neg at hb'
    have hlen : 0 < file.length := List.length_pos.mpr hb'.2
    have hsz : minB + draw idx ≠ 0 := hb'.1
    cases hf : file.length with
    | zero => omega
    | succ m =>
      simp only [unevenSlicerGo, if_neg hb]
      congr 1
      apply unevenSlicerGo_congr
      · simp only [List.length_drop]
        omega
      · exact le_rfl

lemma evenSlicer_flatten (blockSize : Nat) (hB : 0 < blockSize) (file : Bytes) :
    (evenSlicer blockSize file).flatten = file := by
  rw [evenSlicer_eq]
  split
  · rename_i h
    simp only [List.take_eq_nil_iff] at h
    rcases h with h | h
    · omega
    · simp [h]
  · rename_i h
    simp only [List.flatten_cons]
    rw [evenSlicer_flatten blockSize hB (file.drop blockSize)]
    exact List.take_append_drop _ _
termination_by file.length
decreasing_by
  rename_i h
  simp only [List.take_eq_nil_iff] at h
  push_neg at h
  have : 0 < file.length := List.length_pos.mpr h.2
  simp only [List.length_drop]
  omega

lemma unevenSlicer_flatten (draw : Nat → Nat) (minB maxB : Nat) (hm : 0 < minB)
    (idx : Nat) (file : Bytes) :
    (unevenSlicer draw minB maxB idx file).flatten = file := by
  rw [unevenSlicer_eq]
  split
  · rename_i h
    simp only [List.take_eq_nil_iff] at h
    rcases h with h | h
    · omega
    · simp [h]
  · rename_i h
    simp only [List.flatten_cons]
    rw [unevenSlicer_flatten draw minB maxB hm (idx + 1) (file.drop (minB + draw idx))]
    exact List.take_append_drop _ _
termination_by file.length
decreasing_by
  rename_i h
  simp only [List.take_eq_nil_iff] at h
  push_neg at h
  have : 0 < file.length := List.length_pos.mpr h.2
  simp only [List.length_drop]
  omega

/-- Block-length profile of the even slicer: `⌊L/B⌋` full blocks, then the
remainder block when `L` is not a multiple of `B`, then the empty block that
the generator always yields last. -/
lemma evenSlicer_map_length (blockSize : Nat) (hB : 0 < blockSize) (file : Bytes) :
    (evenSlicer blockSize file).map List.length =
      List.replicate (file.length / blockSize) blockSize ++
        (if file.length % blockSize = 0 then [0] else [file.length % blockSize, 0]) := by
  rw [evenSlicer_eq]
  split
  · rename_i h
    simp only [List.take_eq_nil_iff] at h
    rcases h with h | h
    · omega
    · subst h
      simp [Nat.zero_div, Nat.zero_mod]
  · rename_i h
    simp only [List.take_eq_nil_iff] at h
    push_neg at h
    have hfl : 0 < file.length := List.length_pos.mpr h.2
    by_cases hle : blockSize ≤ file.length
    · have htake : (file.take blockSize).length = blockSize := by
        simp [List.length_take]; omega
      have hdrop : (file.drop blockSize).length = file.length - blockSize := by
        simp [List.length_drop]
      simp only [List.map_cons, htake]
      rw [evenSlicer_map_length blockSize hB (file.drop blockSize), hdrop]
      obtain ⟨m, hm⟩ : ∃ m, file.length = blockSize + m := ⟨file.length - blockSize, by omega⟩
      rw [hm]
      have h1 : blockSize + m - blockSize = m := by omega
      have h2 : (blockSize + m) / blockSize = m / blockSize + 1 := by
        rw [Nat.add_comm blockSize m]
        exact Nat.add_div_right m hB
      have h3 : (blockSize + m) % blockSize = m % blockSize := by
        exact Nat.add_mod_left blockSize m
      rw [h1, h2, h3, List.replicate_succ]
      simp
    · push_neg at hle
      have hdrop : file.drop blockSize = [] := by
        apply List.eq_nil_of_length_eq_zero
        simp [List.length_drop]; omega
      have htake : (file.take blockSize).length = file.length := by
        simp [List.length_take]; omega
      rw [hdrop, evenSlicer_eq]
      have hmod : file.length % blockSize = file.length := Nat.mod_eq_of_lt hle
      have hdiv : file.length / blockSize = 0 := Nat.div_eq_of_lt hle
      simp [htake, hmod, hdiv, h.2]
termination_by file.length
decreasing_by
  rename_i h
  simp only [List.take_eq_nil_iff] at h
  push_neg at h
  have : 0 < file.length := List.length_pos.mpr h.2
  simp only [List.length_drop]
  omega

/-! ## String-level lemmas -/

lemma splitDelim_ne_nil (s : Str) : splitDelim s ≠ [] := by
  cases s with
  | nil => simp [splitDelim]
  | cons c rest =>
    cases rest with
    | nil => simp [splitDelim]
    | cons d r =>
      simp only [splitDelim]
      split <;> simp

lemma splitDelim_no_gt (s : Str) (h : '>' ∉ s) : splitDelim s = [s] := by
  induction s with
  | nil => simp [splitDelim]
  | cons c rest ih =>
    have hc : c ≠ '>' := fun hc => h (hc ▸ List.mem_cons_self c rest)
    have hrest : '>' ∉ rest := fun hr => h (List.mem_cons_of_mem c hr)
    cases rest with
    | nil => simp [splitDelim]
    | cons d r =>
      simp only [splitDelim]
      rw [if_neg (by simp [hc]), ih hrest]
      rfl

lemma splitDelim_append_delim (k v : Str) (h : '>' ∉ k) :
    splitDelim (k ++ '>' :: '>' :: v) = k :: splitDelim v := by
  induction k with
  | nil =>
    rw [List.nil_append]
    simp [splitDelim]
  | cons c k' ih =>
    have hc : c ≠ '>' := fun hc => h (hc ▸ List.mem_cons_self c k')
    have hk' : '>' ∉ k' := fun hr => h (List.mem_cons_of_mem c hr)
    cases k' with
    | nil =>
      show splitDelim (c :: '>' :: '>' :: v) = [c] :: splitDelim v
      simp [splitDelim, hc]
    | cons e k'' =>
      have hrec := ih hk'
      rw [show (e :: k'') ++ '>' :: '>' :: v = e :: (k'' ++ '>' :: '>' :: v) from rfl]
        at hrec
      show splitDelim (c :: e :: (k'' ++ '>' :: '>' :: v)) =
        (c :: e :: k'') :: splitDelim v
      simp only [splitDelim]
      rw [if_neg (by simp [hc]), hrec]
      rfl

lemma splitDelim_joinDelim (fs : List Str) (hne : fs ≠ []) (h : ∀ f ∈ fs, '>' ∉ f) :
    splitDelim (joinDelim fs) = fs := by
  induction fs with
  | nil => exact absurd rfl hne
  | cons x xs ih =>
    cases xs with
    | nil => exact splitDelim_no_gt x (h x (List.mem_cons_self x []))
    | cons y t =>
      rw [joinDelim, splitDelim_append_delim x _ (h x (List.mem_cons_self x _))]
      rw [ih (by simp) (fun f hf => h f (List.mem_cons_of_mem x hf))]

/-! ## Strip lemmas -/

lemma dropWhile_eq_self_of_head {p : Char → Bool} (s : Str)
    (h : ∀ c, s.head? = some c → p c = false) : s.dropWhile p = s := by
  cases s with
  | nil => rfl
  | cons c rest => simp [List.dropWhile_cons, h c rfl]

lemma rstripWS_eq_self (s : Str) (h : ∀ c, s.getLast? = some c → isWS c = false) :
    rstripWS s = s := by
  induction s using List.reverseRecOn with
  | nil => rfl
  | append_singleton x c _ =>
    unfold rstripWS
    rw [List.reverse_append]
    simp only [List.reverse_singleton, List.singleton_append, List.dropWhile_cons]
    rw [h c (List.getLast?_concat x)]
    simp

lemma rstripWS_eq_self_of_all (s : Str) (h : ∀ c ∈ s, isWS c = false) :
    rstripWS s = s := by
  apply rstripWS_eq_self
  intro c hc
  exact h c (List.mem_of_mem_getLast? hc)

lemma pyStrip_eq_self_of_all (s : Str) (h : ∀ c ∈ s, isWS c = false) :
    pyStrip s = s := by
  unfold pyStrip
  rw [dropWhile_eq_self_of_head s (fun c hc => h c (by cases s with
    | nil => simp at hc
    | cons a l => simp at hc; simp [hc]))]
  exact rstripWS_eq_self_of_all s h

lemma rstripWS_append (x y : Str) :
    rstripWS (x ++ y) = if rstripWS y = [] then rstripWS x else x ++ rstripWS y := by
  unfold rstripWS
  rw [List.reverse_append, List.dropWhile_append]
  split
  · rename_i hcond
    rw [List.isEmpty_iff] at hcond
    have : (y.reverse.dropWhile isWS).reverse = [] := by rw [hcond]; rfl
    rw [if_pos this]
  · rename_i hcond
    rw [List.isEmpty_iff] at hcond
    have hne : (y.reverse.dropWhile isWS).reverse ≠ [] := by
      simpa using hcond
    rw [if_neg hne, List.reverse_append, List.reverse_reverse]

lemma rstripWS_ne_nil (s : Str) (c : Char) (hc : c ∈ s) (hw : isWS c = false) :
    rstripWS s ≠ [] := by
  unfold rstripWS
  simp only [ne_eq, List.reverse_eq_nil_iff, List.dropWhile_eq_nil_iff]
  intro hall
  have := hall c (by simpa using hc)
  rw [hw] at this
  exact Bool.false_ne_true this

lemma pyStrip_cons (c : Char) (r : Str) (h : isWS c = false) :
    pyStrip (c :: r) = c :: rstripWS r := by
  unfold pyStrip
  rw [List.dropWhile_cons, h]
  simp only [Bool.false_eq_true, if_false]
  have : (c :: r) = [c] ++ r := rfl
  rw [this, rstripWS_append]
  split
  · rename_i h0
    rw [h0]
    unfold rstripWS
    simp [List.dropWhile_cons, h]
  · rfl

/-! ## Decimal print/parse round trip -/

def DIGITS : Str := ['0', '1', '2', '3', '4', '5', '6', '7', '8', '9']

lemma digitChar_mem_DIGITS (d : Nat) : digitChar d ∈ DIGITS := by
  unfold digitChar
  split <;> decide

lemma natDigits_subset_DIGITS (n : Nat) : ∀ c ∈ natDigits n, c ∈ DIGITS := by
  intro c hc
  rw [natDigits_eq] at hc
  split at hc
  · simp at hc
    exact hc ▸ digitChar_mem_DIGITS n
  · rw [List.mem_append] at hc
    rcases hc with hc | hc
    · exact natDigits_subset_DIGITS (n / 10) c hc
    · simp at hc
      exact hc ▸ digitChar_mem_DIGITS (n % 10)
termination_by n
decreasing_by exact Nat.div_lt_self (by omega) (by omega)

lemma DIGITS_props : ∀ c ∈ DIGITS, isWS c = false ∧ c ≠ '>' ∧ c ≠ '#' ∧
    c ≠ '-' ∧ c ≠ '+' ∧ c ≠ '.' ∧ ('0' ≤ c ∧ c ≤ '9') := by decide

lemma natDigits_ne_nil (n : Nat) : natDigits n ≠ [] := by
  rw [natDigits_eq]
  split <;> simp

lemma parseDigitsAux_append (xs ys : Str) (acc : Nat) :
    parseDigitsAux acc (xs ++ ys) =
      (parseDigitsAux acc xs).bind (fun a => parseDigitsAux a ys) := by
  induction xs generalizing acc with
  | nil => simp [parseDigitsAux]
  | cons c cs ih =>
    cases hdv : digitVal c with
    | none => simp [parseDigitsAux, hdv]
    | some d => simp [parseDigitsAux, hdv, ih]

lemma digitVal_digitChar (d : Nat) (h : d < 10) : digitVal (digitChar d) = some d := by
  interval_cases d <;> decide

lemma parse_natDigits_aux (n : Nat) : ∀ acc : Nat,
    parseDigitsAux acc (natDigits n) = some (acc * 10 ^ (natDigits n).length + n) := by
  intro acc
  rw [natDigits_eq]
  split
  · rename_i h
    simp [parseDigitsAux, digitVal_digitChar n h]
  · rename_i h
    rw [parseDigitsAux_append, parse_natDigits_aux (n / 10) acc]
    simp only [Option.some_bind]
    simp only [parseDigitsAux, digitVal_digitChar (n % 10) (Nat.mod_lt n (by omega))]
    congr 1
    have hdm : n / 10 * 10 + n % 10 = n := by
      have := Nat.div_add_mod n 10
      omega
    have hlen : (natDigits (n / 10) ++ [digitChar (n % 10)]).length =
        (natDigits (n / 10)).length + 1 := by simp
    rw [hlen, pow_succ]
    calc (acc * 10 ^ (natDigits (n / 10)).length + n / 10) * 10 + n % 10
        = acc * (10 ^ (natDigits (n / 10)).length * 10) + (n / 10 * 10 + n % 10) := by ring
      _ = acc * (10 ^ (natDigits (n / 10)).length * 10) + n := by rw [hdm]
termination_by n
decreasing_by exact Nat.div_lt_self (by omega) (by omega)

lemma parseDigits_natDigits (n : Nat) : parseDigits (natDigits n) = some n := by
  unfold parseDigits
  rw [if_neg (natDigits_ne_nil n), parse_natDigits_aux n 0]
  simp

lemma pyStrip_natDigits (n : Nat) : pyStrip (natDigits n) = natDigits n := by
  apply pyStrip_eq_self_of_all
  intro c hc
  exact (DIGITS_props c (natDigits_subset_DIGITS n c hc)).1

lemma pyInt_natDigits (n : Nat) : pyInt (natDigits n) = some (n : Int) := by
  unfold pyInt
  rw [pyStrip_natDigits]
  obtain ⟨c, cs, hcons⟩ : ∃ c cs, natDigits n = c :: cs := by
    cases h : natDigits n with
    | nil => exact absurd h (natDigits_ne_nil n)
    | cons c cs => exact ⟨c, cs, rfl⟩
  have hc : c ∈ DIGITS := natDigits_subset_DIGITS n c (by rw [hcons]; simp)
  have hprops := DIGITS_props c hc
  rw [hcons]
  rw [if_neg (by simp [hprops.2.2.2.1]), if_neg (by simp [hprops.2.2.2.2.1])]
  rw [← hcons, parseDigits_natDigits]
  rfl

/-! ## Claim C4: partition completeness of both slicers -/

/-- C4: for every source file and both slicing modes, the concatenation of the
yielded blocks in yield order equals the source byte stream: no byte is
skipped, duplicated or reordered.  (Positive block-size bounds are the valid
configurations; with a zero bound the first read already returns empty.) -/
theorem claim_C4 (blockSize : Nat) (draw : Nat → Nat) (minB maxB : Nat)
    (file : Bytes) (hB : 0 < blockSize) (hm : 0 < minB) :
    (evenSlicer blockSize file).flatten = file ∧
      (unevenSlicer draw minB maxB 0 file).flatten = file :=
  ⟨evenSlicer_flatten blockSize hB file, unevenSlicer_flatten draw minB maxB hm 0 file⟩

theorem claim_C4_witness :
    (evenSlicer 2 [1, 2, 3]).flatten = [1, 2, 3] ∧
      (unevenSlicer (fun _ => 1) 2 4 0 [1, 2, 3]).flatten = [1, 2, 3] :=
  claim_C4 2 (fun _ => 1) 2 4 [1, 2, 3] (by decide) (by decide)

/-! ## Session settings (`JigsawFile.setting`, jigsaw.py lines 223-269) -/

/-- A duck-typed Python value passed to `JigsawFile.setting`. -/
inductive PyVal where
  | vint (i : Int)
  | vstr (s : Str)
deriving DecidableEq

/-- Python `str(v)`. -/
def pyValStr : PyVal → Str
  | .vint i => intStr i
  | .vstr s => s

/-- Python `int(v)`; `none` models the `ValueError` on a malformed string. -/
def pyValInt : PyVal → Option Int
  | .vint i => some i
  | .vstr s => pyInt s

/-- ASCII lower-casing, Python `str.lower()` restricted to ASCII. -/
def lowerChar (c : Char) : Char :=
  if 'A' ≤ c ∧ c ≤ 'Z' then Char.ofNat (c.toNat + 32) else c

def lowerStr (s : Str) : Str := s.map lowerChar

/-- The mutable option fields of `JigsawFile` touched by `setting`
(`JigsawFile.__init__`, jigsaw.py lines 192-221, default values included). -/
structure JigsawSettings where
  version : Str
  slicer : Str
  block_size : Int
  filename_length : Int
  hashlength : Int
  verbose : Int
deriving DecidableEq

def defaultSettings : JigsawSettings :=
  { version := "JigsawFileONE".data
    slicer := "even".data
    block_size := 4096
    filename_length := 30
    hashlength := 16
    verbose := 1 }

/-- `JigsawFile.setting` (jigsaw.py lines 223-269): duck-typed key/value
option setter.  `none` models the exception `int(value)` raises on a
malformed string before any assignment happens. -/
def setting (st : JigsawSettings) (key value : PyVal) : Option JigsawSettings :=
  if lowerStr (pyValStr key) = "slicer".data then
    some { st with slicer :=
      (if lowerStr (pyValStr value) = "uneven".data then "uneven".data else "even".data) }
  else if lowerStr (pyValStr key) = "blocksize".data then
    (pyValInt value).map (fun i => { st with block_size := |i| })
  else if lowerStr (pyValStr key) = "filenamelength".data then
    (pyValInt value).map (fun i => { st with filename_length := |i| })
  else if lowerStr (pyValStr key) = "version".data then
    some { st with version :=
      (if value = .vint 1 then "JigsawFileONE".data
        else if value = .vint 2 then "JigsawFileTWO".data
        else if value = .vint 3 then "JigsawFileTHREE".data
        else st.version) }
  else if lowerStr (pyValStr key) = "hashlength".data then
    (pyValInt value).map (fun i => { st with hashlength := |i| })
  else if lowerStr (pyValStr key) = "verbose".data then
    (pyValInt value).map (fun i => { st with verbose := |i| })
  else some st

/-- The configuration invariant maintained by `setting`. -/
def settingsInv (st : JigsawSettings) : Prop :=
  (st.slicer = "even".data ∨ st.slicer = "uneven".data) ∧
    0 ≤ st.block_size ∧ 0 ≤ st.filename_length ∧ 0 ≤ st.hashlength ∧ 0 ≤ st.verbose

instance (st : JigsawSettings) : Decidable (settingsInv st) := by
  unfold settingsInv
  infer_instance

/-- The option keys recognised by `setting`. -/
def settingKeys : List Str :=
  ["slicer".data, "blocksize".data, "filenamelength".data, "version".data,
    "hashlength".data, "verbose".data]

/-- C10: after any single successful call to `setting`, the configuration
invariant is preserved (slicer stays 'even'/'uneven', any slicer value other
than 'uneven' selects 'even', integer settings are stored as non-negative via
`abs`), and a call with an unrecognised key changes nothing. -/
theorem claim_C10 (st st' : JigsawSettings) (key value : PyVal)
    (hcall : setting st key value = some st') :
    settingsInv defaultSettings ∧ (settingsInv st → settingsInv st') ∧
      (lowerStr (pyValStr key) ∉ settingKeys → st' = st) ∧
      (∀ i, pyValInt value = some i →
        (lowerStr (pyValStr key) = "blocksize".data → st'.block_size = |i|) ∧
          (lowerStr (pyValStr key) = "filenamelength".data →
            st'.filename_length = |i|) ∧
          (lowerStr (pyValStr key) = "hashlength".data → st'.hashlength = |i|) ∧
          (lowerStr (pyValStr key) = "verbose".data → st'.verbose = |i|)) ∧
      (lowerStr (pyValStr key) = "slicer".data →
        (st'.slicer = "even".data ∨ st'.slicer = "uneven".data) ∧
          (lowerStr (pyValStr value) ≠ "uneven".data → st'.slicer = "even".data)) := by
  refine ⟨by decide, ?_⟩
  unfold setting at hcall
  by_cases h1 : lowerStr (pyValStr key) = "slicer".data
  · rw [if_pos h1, Option.some.injEq] at hcall
    subst hcall
    refine ⟨?_, ?_, ?_, ?_⟩
    · intro hinv
      unfold settingsInv at hinv ⊢
      refine ⟨?_, hinv.2⟩
      by_cases hu : lowerStr (pyValStr value) = "uneven".data
      · right; simp [hu]
      · left; simp [hu]
    · intro hk
      exact absurd (by rw [h1]; simp [settingKeys]) hk
    · intro i _
      refine ⟨?_, ?_, ?_, ?_⟩ <;> intro hk <;>
        exact absurd (h1.symm.trans hk) (by decide)
    · intro _
      constructor
      · by_cases hu : lowerStr (pyValStr value) = "uneven".data
        · right; simp [hu]
        · left; simp [hu]
      · intro hv; simp [hv]
  · rw [if_neg h1] at hcall
    by_cases h2 : lowerStr (pyValStr key) = "blocksize".data
    · rw [if_pos h2] at hcall
      cases hv : pyValInt value with
      | none => rw [hv] at hcall; simp at hcall
      | some i =>
        rw [hv] at hcall
        simp only [Option.map_some', Option.some.injEq] at hcall
        subst hcall
        refine ⟨?_, ?_, ?_, fun hk => absurd (hk.symm.trans h2) (by decide)⟩
        · intro hinv
          unfold settingsInv at hinv ⊢
          exact ⟨hinv.1, abs_nonneg i, hinv.2.2⟩
        · intro hk
          exact absurd (by rw [h2]; simp [settingKeys]) hk
        · intro j hj
          rw [Option.some.injEq] at hj
          subst hj
          refine ⟨fun _ => rfl, ?_, ?_, ?_⟩ <;> intro hk <;>
            exact absurd (h2.symm.trans hk) (by decide)
    · rw [if_neg h2] at hcall
      by_cases h3 : lowerStr (pyValStr key) = "filenamelength".data
      · rw [if_pos h3] at hcall
        cases hv : pyValInt value with
        | none => rw [hv] at hcall; simp at hcall
        | some i =>
          rw [hv] at hcall
          simp only [Option.map_some', Option.some.injEq] at hcall
          subst hcall
          refine ⟨?_, ?_, ?_, fun hk => absurd (hk.symm.trans h3) (by decide)⟩
          · intro hinv
            unfold settingsInv at hinv ⊢
            exact ⟨hinv.1, hinv.2.1, abs_nonneg i, hinv.2.2.2⟩
          · intro hk
            exact absurd (by rw [h3]; simp [settingKeys]) hk
          · intro j hj
            rw [Option.some.injEq] at hj
            subst hj
            refine ⟨?_, fun _ => rfl, ?_, ?_⟩ <;> intro hk <;>
              exact absurd (h3.symm.trans hk) (by decide)
      · rw [if_neg h3] at hcall
        by_cases h4 : lowerStr (pyValStr key) = "version".data
        · rw [if_pos h4, Option.some.injEq] at hcall
          subst hcall
          refine ⟨?_, ?_, ?_, fun hk => absurd (hk.symm.trans h4) (by decide)⟩
          · intro hinv
            unfold settingsInv at hinv ⊢
            exact ⟨hinv.1, hinv.2⟩
          · intro hk
            exact absurd (by rw [h4]; simp [settingKeys]) hk
          · intro i _
            refine ⟨?_, ?_, ?_, ?_⟩ <;> intro hk <;>
              exact absurd (h4.symm.trans hk) (by decide)
        · rw [if_neg h4] at hcall
          by_cases h5 : lowerStr (pyValStr key) = "hashlength".data
          · rw [if_pos h5] at hcall
            cases hv : pyValInt value with
            | none => rw [hv] at hcall; simp at hcall
            | some i =>
              rw [hv] at hcall
              simp only [Option.map_some', Option.some.injEq] at hcall
              subst hcall
              refine ⟨?_, ?_, ?_, fun hk => absurd (hk.symm.trans h5) (by decide)⟩
              · intro hinv
                unfold settingsInv at hinv ⊢
                exact ⟨hinv.1, hinv.2.1, hinv.2.2.1, abs_nonneg i, hinv.2.2.2.2⟩
              · intro hk
                exact absurd (by rw [h5]; simp [settingKeys]) hk
              · intro j hj
                rw [Option.some.injEq] at hj
                subst hj
                refine ⟨?_, ?_, fun _ => rfl, ?_⟩ <;> intro hk <;>
                  exact absurd (h5.symm.trans hk) (by decide)
          · rw [if_neg h5] at hcall
            by_cases h6 : lowerStr (pyValStr key) = "verbose".data
            · rw [if_pos h6] at hcall
              cases hv : pyValInt value with
              | none => rw [hv] at hcall; simp at hcall
              | some i =>
                rw [hv] at hcall
                simp only [Option.map_some', Option.some.injEq] at hcall
                subst hcall
                refine ⟨?_, ?_, ?_, fun hk => absurd (hk.symm.trans h6) (by decide)⟩
                · intro hinv
                  unfold settingsInv at hinv ⊢
                  exact ⟨hinv.1, hinv.2.1, hinv.2.2.1, hinv.2.2.2.1, abs_nonneg i⟩
                · intro hk
                  exact absurd (by rw [h6]; simp [settingKeys]) hk
                · intro j hj
                  rw [Option.some.injEq] at hj
                  subst hj
                  refine ⟨?_, ?_, ?_, fun _ => rfl⟩ <;> intro hk <;>
                    exact absurd (h6.symm.trans hk) (by decide)
            · rw [if_neg h6, Option.some.injEq] at hcall
              subst hcall
              refine ⟨fun hinv => hinv, fun _ => rfl, ?_, fun hk => absurd hk h1⟩
              intro i _
              exact ⟨fun hk => absurd hk h2, fun hk => absurd hk h3,
                fun hk => absurd hk h5, fun hk => absurd hk h6⟩

theorem claim_C10_witness :
    setting defaultSettings (PyVal.vstr "blocksize".data) (PyVal.vint (-5)) =
        some { defaultSettings with block_size := 5 } ∧
      (settingsInv defaultSettings ∧
        (settingsInv defaultSettings →
          settingsInv { defaultSettings with block_size := 5 }) ∧
        (lowerStr (pyValStr (PyVal.vstr "blocksize".data)) ∉ settingKeys →
          { defaultSettings with block_size := 5 } = defaultSettings) ∧
        (∀ i, pyValInt (PyVal.vint (-5)) = some i →
          (lowerStr (pyValStr (PyVal.vstr "blocksize".data)) = "blocksize".data →
            ({ defaultSettings with block_size := 5 } : JigsawSettings).block_size = |i|) ∧
            (lowerStr (pyValStr (PyVal.vstr "blocksize".data)) = "filenamelength".data →
              ({ defaultSettings with block_size := 5 } : JigsawSettings).filename_length = |i|) ∧
            (lowerStr (pyValStr (PyVal.vstr "blocksize".data)) = "hashlength".data →
              ({ defaultSettings with block_size := 5 } : JigsawSettings).hashlength = |i|) ∧
            (lowerStr (pyValStr (PyVal.vstr "blocksize".data)) = "verbose".data →
              ({ defaultSettings with block_size := 5 } : JigsawSettings).verbose = |i|)) ∧
        (lowerStr (pyValStr (PyVal.vstr "blocksize".data)) = "slicer".data →
          (({ defaultSettings with block_size := 5 } : JigsawSettings).slicer = "even".data ∨
            ({ defaultSettings with block_size := 5 } : JigsawSettings).slicer = "uneven".data) ∧
            (lowerStr (pyValStr (PyVal.vint (-5))) ≠ "uneven".data →
              ({ defaultSettings with block_size := 5 } : JigsawSettings).slicer =
                "even".data))) :=
  ⟨by decide, claim_C10 defaultSettings { defaultSettings with block_size := 5 }
    (PyVal.vstr "blocksize".data) (PyVal.vint (-5)) (by decide)⟩

/-! ## Key File Codec: header side
(`_addHeader` lines 362-374, `_writeKeyHeader` lines 340-360,
`_readKeyFile` header part lines 499-513) -/

/-- Python dict assignment `m[k] = v`: overwrite in place, else append
(insertion order preserved, as in CPython). -/
def updAssocStr (m : List (Str × Str)) (k v : Str) : List (Str × Str) :=
  if k ∈ m.map Prod.fst then
    m.map (fun p => if p.1 = k then (k, v) else p)
  else m ++ [(k, v)]

/-- Python dict lookup `m[k]`; `none` models `KeyError`. -/
def lookupStr : List (Str × Str) → Str → Option Str
  | [], _ => none
  | p :: rest, k => if p.1 = k then some p.2 else lookupStr rest k

/-- `JigsawFile._addHeader` (jigsaw.py lines 362-374): prefix `'#'` when
missing, then store into the header dictionary. -/
def addHeader (hdr : List (Str × Str)) (key value : Str) : List (Str × Str) :=
  if key.head? = some '#' then updAssocStr hdr key value
  else updAssocStr hdr ('#' :: key) value

/-- The header dictionary built by a sequence of `_addHeader` calls. -/
def addHeaderAll (pairs : List (Str × Str)) : List (Str × Str) :=
  pairs.foldl (fun h p => addHeader h p.1 p.2) []

/-- `JigsawFile._writeKeyHeader` (jigsaw.py lines 340-360): one line
`'>>'.join([k, header[k]])` per entry, in dictionary order. -/
def writeKeyHeaderLines (hdr : List (Str × Str)) : List Str :=
  hdr.map (fun p => joinDelim [p.1, p.2])

/-- `_readKeyFile` lines 505-507: strip each line (the `x[:-1]` removed the
newline that `write(line + '\n')` appended; `strip()` remains) and drop blank
lines. -/
def cleanKeyLines (lines : List Str) : List Str :=
  (lines.map pyStrip).filter (fun x => decide (x ≠ []))

/-- `_readKeyFile` line 509: the lines starting with `'#'`. -/
def headerLinesOf (lines : List Str) : List Str :=
  (cleanKeyLines lines).filter (fun x => decide (x.head? = some '#'))

/-- `_readKeyFile` line 515: the remaining (encryption-code) lines. -/
def codeLinesOf (lines : List Str) : List Str :=
  (cleanKeyLines lines).filter (fun x => decide (¬ (x.head? = some '#')))

/-- One step of the header loop (lines 510-512): split after the `'#'`,
store `item[0].strip() -> item[1].strip()`; `none` is the `IndexError`
raised when a header line has no delimiter. -/
def readHeaderLine (kh : List (Str × Str)) (x : Str) : Option (List (Str × Str)) :=
  match splitDelim (x.drop 1) with
  | a :: b :: _ => some (updAssocStr kh (pyStrip a) (pyStrip b))
  | _ => none

/-- The header dictionary recovered by `_readKeyFile` (lines 508-512). -/
def readKeyHead (lines : List Str) : Option (List (Str × Str)) :=
  (headerLinesOf lines).foldlM readHeaderLine []

/-- What the reader recovers from a written header value: the text up to the
first delimiter occurrence of its right-stripped form, stripped. -/
def headerValueMangle (v : Str) : Str :=
  pyStrip ((splitDelim (rstripWS v)).headD [])

lemma updAssocStr_fresh (m : List (Str × Str)) (k v : Str)
    (h : k ∉ m.map Prod.fst) : updAssocStr m k v = m ++ [(k, v)] := by
  unfold updAssocStr
  rw [if_neg h]

lemma key_no_gt {k : Str} (hk : ∀ c ∈ k, isWS c = false ∧ c ≠ '>') : '>' ∉ k :=
  fun hmem => ((hk _ hmem).2) rfl

lemma key_strip {k : Str} (hk : ∀ c ∈ k, isWS c = false ∧ c ≠ '>') :
    pyStrip k = k :=
  pyStrip_eq_self_of_all _ (fun c hc => (hk c hc).1)

lemma rstripWS_delim_append (k v : Str) :
    rstripWS (k ++ '>' :: '>' :: v) = k ++ '>' :: '>' :: rstripWS v := by
  have hx : k ++ '>' :: '>' :: v = (k ++ ['>', '>']) ++ v := by simp
  have hxs : rstripWS (k ++ ['>', '>']) = k ++ ['>', '>'] := by
    apply rstripWS_eq_self
    intro c hc
    have : (k ++ ['>', '>']).getLast? = some '>' := by
      have : k ++ ['>', '>'] = (k ++ ['>']) ++ ['>'] := by simp
      rw [this]
      exact List.getLast?_concat _
    rw [this] at hc
    cases hc
    decide
  rw [hx, rstripWS_append]
  split
  · rename_i h0
    rw [hxs, h0]
  · simp

lemma pyStrip_header_line (k v : Str) :
    pyStrip (('#' :: k) ++ '>' :: '>' :: v) =
      ('#' :: k) ++ '>' :: '>' :: rstripWS v := by
  have h1 : ('#' :: k) ++ '>' :: '>' :: v = '#' :: (k ++ '>' :: '>' :: v) := rfl
  rw [h1, pyStrip_cons _ _ (by decide), rstripWS_delim_append]
  rfl

lemma readHeaderLine_eq (acc : List (Str × Str)) (k w : Str)
    (hk : ∀ c ∈ k, isWS c = false ∧ c ≠ '>') :
    readHeaderLine acc (('#' :: k) ++ '>' :: '>' :: w) =
      some (updAssocStr acc k (pyStrip ((splitDelim w).headD []))) := by
  unfold readHeaderLine
  have hdrop : ((('#' :: k) ++ '>' :: '>' :: w).drop 1) = k ++ '>' :: '>' :: w := rfl
  rw [hdrop, splitDelim_append_delim k w (key_no_gt hk)]
  obtain ⟨b, t, hbt⟩ : ∃ b t, splitDelim w = b :: t := by
    cases h : splitDelim w with
    | nil => exact absurd h (splitDelim_ne_nil w)
    | cons b t => exact ⟨b, t, rfl⟩
  rw [hbt]
  simp only [List.headD_cons]
  rw [key_strip hk]

lemma readHeader_fold (qs : List (Str × Str)) (acc : List (Str × Str))
    (hk : ∀ q ∈ qs, ∀ c ∈ q.1, isWS c = false ∧ c ≠ '>')
    (hfresh : ∀ q ∈ qs, q.1 ∉ acc.map Prod.fst)
    (hnodup : (qs.map Prod.fst).Nodup) :
    (qs.map (fun q => ('#' :: q.1) ++ '>' :: '>' :: q.2)).foldlM readHeaderLine acc =
      some (acc ++ qs.map (fun q => (q.1, pyStrip ((splitDelim q.2).headD [])))) := by
  induction qs generalizing acc with
  | nil => simp [List.foldlM]
  | cons q qs ih =>
    simp only [List.map_cons, List.foldlM_cons]
    rw [readHeaderLine_eq acc q.1 q.2 (hk q (List.mem_cons_self q qs))]
    rw [updAssocStr_fresh _ _ _ (hfresh q (List.mem_cons_self q qs))]
    simp only [Option.bind_eq_bind, Option.some_bind]
    rw [ih _ (fun p hp => hk p (List.mem_cons_of_mem q hp))
      (fun p hp => by
        simp only [List.map_append, List.mem_append]
        push_neg
        refine ⟨hfresh p (List.mem_cons_of_mem q hp), ?_⟩
        simp only [List.map_cons, List.map_nil, List.mem_singleton]
        intro hpq
        have hq1 : p.1 ∈ qs.map Prod.fst := List.mem_map_of_mem Prod.fst hp
        rw [hpq] at hq1
        simp only [List.map_cons, List.nodup_cons] at hnodup
        exact hnodup.1 hq1)
      (by simp only [List.map_cons, List.nodup_cons] at hnodup; exact hnodup.2)]
    simp

lemma addHeader_foldl (pairs : List (Str × Str)) (acc : List (Str × Str))
    (hnohash : ∀ p ∈ pairs, p.1.head? ≠ some '#')
    (hfresh : ∀ p ∈ pairs, ('#' :: p.1) ∉ acc.map Prod.fst)
    (hnodup : (pairs.map Prod.fst).Nodup) :
    pairs.foldl (fun h p => addHeader h p.1 p.2) acc =
      acc ++ pairs.map (fun p => ('#' :: p.1, p.2)) := by
  induction pairs generalizing acc with
  | nil => simp
  | cons p ps ih =>
    simp only [List.foldl_cons]
    have hstep : addHeader acc p.1 p.2 = acc ++ [('#' :: p.1, p.2)] := by
      unfold addHeader
      rw [if_neg (hnohash p (List.mem_cons_self p ps))]
      exact updAssocStr_fresh _ _ _ (hfresh p (List.mem_cons_self p ps))
    rw [hstep, ih _ (fun q hq => hnohash q (List.mem_cons_of_mem p hq))
      (fun q hq => by
        simp only [List.map_append, List.mem_append]
        push_neg
        refine ⟨hfresh q (List.mem_cons_of_mem p hq), ?_⟩
        simp only [List.map_cons, List.map_nil, List.mem_singleton]
        intro hqp
        have hinj : q.1 = p.1 := by
          injection hqp
        have hq1 : q.1 ∈ ps.map Prod.fst := List.mem_map_of_mem Prod.fst hq
        rw [hinj] at hq1
        simp only [List.map_cons, List.nodup_cons] at hnodup
        exact hnodup.1 hq1)
      (by simp only [List.map_cons, List.nodup_cons] at hnodup; exact hnodup.2)]
    simp

/-- Writing a header with `_addHeader`/`_writeKeyHeader` and reading it back
with `_readKeyFile` recovers every field name (without its `'#'` marker) bound
to the reader's view of its value. -/
lemma readKeyHead_write (pairs : List (Str × Str))
    (hkeys : (pairs.map Prod.fst).Nodup)
    (hk : ∀ p ∈ pairs, (∀ c ∈ p.1, isWS c = false ∧ c ≠ '>') ∧ p.1.head? ≠ some '#') :
    readKeyHead (writeKeyHeaderLines (addHeaderAll pairs)) =
      some (pairs.map (fun p => (p.1, headerValueMangle p.2))) := by
  have haddall : addHeaderAll pairs = pairs.map (fun p => ('#' :: p.1, p.2)) := by
    unfold addHeaderAll
    rw [addHeader_foldl pairs [] (fun p hp => (hk p hp).2) (by simp) hkeys]
    simp
  rw [haddall]
  have hlines : writeKeyHeaderLines (pairs.map (fun p => ('#' :: p.1, p.2))) =
      pairs.map (fun p => ('#' :: p.1) ++ '>' :: '>' :: p.2) := by
    unfold writeKeyHeaderLines
    rw [List.map_map]
    apply List.map_congr_left
    intro p _
    rfl
  rw [hlines]
  have hclean : cleanKeyLines (pairs.map (fun p => ('#' :: p.1) ++ '>' :: '>' :: p.2)) =
      pairs.map (fun p => ('#' :: p.1) ++ '>' :: '>' :: rstripWS p.2) := by
    unfold cleanKeyLines
    rw [List.map_map]
    have hmapped : (pairs.map (pyStrip ∘ fun p => ('#' :: p.1) ++ '>' :: '>' :: p.2)) =
        pairs.map (fun p => ('#' :: p.1) ++ '>' :: '>' :: rstripWS p.2) := by
      apply List.map_congr_left
      intro p _
      simp only [Function.comp_apply]
      exact pyStrip_header_line p.1 p.2
    rw [hmapped, List.filter_eq_self.mpr]
    intro a ha
    simp only [List.mem_map] at ha
    obtain ⟨p, _, hp⟩ := ha
    subst hp
    simp
  have hhdr : headerLinesOf (pairs.map (fun p => ('#' :: p.1) ++ '>' :: '>' :: p.2)) =
      pairs.map (fun p => ('#' :: p.1) ++ '>' :: '>' :: rstripWS p.2) := by
    unfold headerLinesOf
    rw [hclean, List.filter_eq_self.mpr]
    intro a ha
    simp only [List.mem_map] at ha
    obtain ⟨p, _, hp⟩ := ha
    subst hp
    simp
  unfold readKeyHead
  rw [hhdr]
  have hq : pairs.map (fun p => ('#' :: p.1) ++ '>' :: '>' :: rstripWS p.2) =
      (pairs.map (fun p => (p.1, rstripWS p.2))).map
        (fun q => ('#' :: q.1) ++ '>' :: '>' :: q.2) := by
    rw [List.map_map]
    rfl
  rw [hq, readHeader_fold (pairs.map (fun p => (p.1, rstripWS p.2))) []
    (fun q hq => by
      simp only [List.mem_map] at hq
      obtain ⟨p, hp, hpq⟩ := hq
      subst hpq
      exact (hk p hp).1)
    (by simp)
    (by rw [List.map_map]; exact hkeys)]
  rw [List.map_map]
  simp only [List.nil_append]
  rfl

/-- C7: encoding a key file's header and decoding it back yields the identical
field-name-to-value mapping (field names are keyed without the `'#'` marker the
writer adds and the reader removes).  The hypotheses are the documented
constraints: distinct field names, delimiter-free names and values, values with
no surrounding whitespace, and newline-free values (a value containing a
newline would change the physical line structure). -/
theorem claim_C7 (pairs : List (Str × Str))
    (hkeys : (pairs.map Prod.fst).Nodup)
    (hk : ∀ p ∈ pairs, (∀ c ∈ p.1, isWS c = false ∧ c ≠ '>') ∧ p.1.head? ≠ some '#')
    (hv : ∀ p ∈ pairs, splitDelim p.2 = [p.2] ∧ p.2.dropWhile isWS = p.2 ∧
      rstripWS p.2 = p.2 ∧ '\n' ∉ p.2) :
    readKeyHead (writeKeyHeaderLines (addHeaderAll pairs)) = some pairs := by
  rw [readKeyHead_write pairs hkeys hk]
  congr 1
  conv_rhs => rw [← List.map_id pairs]
  apply List.map_congr_left
  intro p hp
  obtain ⟨hsplit, hdrop, hrstrip, _⟩ := hv p hp
  unfold headerValueMangle
  rw [hrstrip, hsplit]
  simp only [List.headD_cons, id]
  unfold pyStrip
  rw [hdrop, hrstrip]

theorem claim_C7_witness :
    readKeyHead (writeKeyHeaderLines (addHeaderAll
        [("version".data, "JigsawFileONE".data), ("hashlength".data, "16".data)])) =
      some [("version".data, "JigsawFileONE".data), ("hashlength".data, "16".data)] :=
  claim_C7 _ (by decide) (by decide) (by decide)

/-! ## Fragment Store -/

/-- On-disk fragment files: full path to byte content.  A write prepends
(shadowing an earlier file at the same path, which models overwriting); a
read returns the newest entry, `none` modelling the missing-file `IOError`. -/
abbrev Store := List (Str × Bytes)

def writeStore (store : Store) (path : Str) (blk : Bytes) : Store :=
  (path, blk) :: store

def readStore : Store → Str → Option Bytes
  | [], _ => none
  | p :: rest, path => if p.1 = path then some p.2 else readStore rest path

/-- `os.sep.join([d, n])`, with `os.sep` modelled as `'/'`. -/
def pathJoin (d n : Str) : Str := d ++ '/' :: n

/-! ## Fragment naming (`JigsawFile._generateFilename`, jigsaw.py lines 271-286) -/

/-- The restricted alphanumeric alphabet of `_generateFilename`. -/
def mapping : Str :=
  ['1', '2', '3', '4', '5', '6', '7', '8', '9', 'A',
   'B', 'C', 'D', 'E', 'F', 'G', 'H', 'I', 'J', 'K',
   'L', 'M', 'N', 'O', 'P', 'Q', 'R', 'S', 'T', 'U',
   'V', 'W', 'X', 'Y', 'Z', 'a', 'b', 'd', 'e', 'g',
   'h', 'q', 'r', 't']

def jigExt : Str := ['.', 'j', 'i', 'g']

/-- `_generateFilename`: each loop iteration draws one candidate raw name
(the stream `cand` models the `filename_length` `random.choice` draws of one
iteration), appends `'.jig'`, retries while the result occurs in `fileList`,
then records and returns it.  The source loop is unbounded; `fuel` bounds the
retries, with `none` modelling exhaustion. -/
def generateFilename (cand : Nat → Str) :
    Nat → Nat → List Str → Option (Str × Nat × List Str)
  | 0, _, _ => none
  | fuel + 1, idx, fileList =>
    if cand idx ++ jigExt ∈ fileList then generateFilename cand fuel (idx + 1) fileList
    else some (cand idx ++ jigExt, idx + 1, fileList ++ [cand idx ++ jigExt])

/-- `encrypt` lines 471-473: seed the collision list from the `.jig` files in
the output directory — note the source keeps only `x.split('.')[0]`, the part
before the first dot. -/
def seedFileList (listing : List Str) : List Str :=
  (listing.filter (fun x => jigExt.isSuffixOf x)).map
    (fun x => x.takeWhile (fun c => c != '.'))

/-! ## Encode pipeline (`_writeJigsawFile` lines 392-408, `_encrypt1` lines
410-451, `encrypt` lines 453-497) -/

structure GenState where
  idx : Nat
  fileList : List Str
  store : Store
deriving DecidableEq

/-- `JigsawFile._writeJigsawFile`: generate a fresh name, write the block at
`outputdir/name`, return the truncated block hash and the name. -/
def writeJigsawFile (hashF : Bytes → Str) (hashlength : Nat) (outputdir : Str)
    (cand : Nat → Str) (fuel : Nat) (st : GenState) (block : Bytes) :
    Option ((Str × Str) × GenState) :=
  match generateFilename cand fuel st.idx st.fileList with
  | none => none
  | some (nm, idx', fl') =>
    some (((hashF block).take hashlength, nm),
      { idx := idx', fileList := fl',
        store := writeStore st.store (pathJoin outputdir nm) block })

def AA : Str := ['A', 'A']

/-- One body line of the key file:
`'>>'.join(['AA', str(count), str(len(block)), outputdir, name, hash])`. -/
def bodyLine (outputdir : Str) (count : Nat) (block : Bytes) (nm hsh : Str) : Str :=
  joinDelim [AA, natDigits count, natDigits block.length, outputdir, nm, hsh]

/-- The per-block loop of `_encrypt1` (jigsaw.py lines 429-451). -/
def encrypt1Blocks (hashF : Bytes → Str) (hashlength : Nat) (outputdir : Str)
    (cand : Nat → Str) (fuel : Nat) :
    List Bytes → Nat → GenState → Option (List Str × GenState)
  | [], _, st => some ([], st)
  | b :: bs, count, st =>
    match writeJigsawFile hashF hashlength outputdir cand fuel st b with
    | none => none
    | some ((hsh, nm), st') =>
      match encrypt1Blocks hashF hashlength outputdir cand fuel bs (count + 1) st' with
      | none => none
      | some (lines, st'') => some (bodyLine outputdir count b nm hsh :: lines, st'')

/-- The block sequence `_encrypt1` consumes for the configured slicer
(lines 430-444); a slicer value outside 'even'/'uneven' runs neither loop. -/
def slicerBlocks (slicer : Str) (blockSize : Nat) (draw : Nat → Nat)
    (file : Bytes) : List Bytes :=
  if slicer = "even".data then evenSlicer blockSize file
  else if slicer = "uneven".data then
    unevenSlicer draw blockSize (blockSize * 2) 0 file
  else []

/-- The ten `_addHeader` calls of `encrypt` (lines 480-489), with the six
whole-file digests `checksums[0] .. checksums[5]`. -/
def headerPairs (version inputdir infile : Str) (hashlength : Nat)
    (cs : List Str) : List (Str × Str) :=
  [("version".data, version), ("inputdir".data, inputdir), ("infile".data, infile),
   ("hashlength".data, natDigits hashlength),
   ("md5".data, cs.getD 0 []), ("sha1".data, cs.getD 1 []),
   ("sha224".data, cs.getD 2 []), ("sha256".data, cs.getD 3 []),
   ("sha384".data, cs.getD 4 []), ("sha512".data, cs.getD 5 [])]

structure EncResult where
  lines : List Str
  store : Store
  fileList : List Str
  count : Nat
deriving DecidableEq

/-- `JigsawFile.encrypt` (jigsaw.py lines 453-497): seed the collision list
from the directory listing, build the header, write header lines then body
lines (`_encrypt1`), producing the key-file lines and the fragment files.
`whole` abstracts `generateHash` (the six whole-file digests), `store0` is the
pre-existing directory content.  A version other than `JigsawFileONE` makes
the source crash on the unbound `num_blocks` (modelled `none`). -/
def encryptModel (version slicer : Str) (blockSize hashlength : Nat)
    (hashF : Bytes → Str) (whole : Bytes → List Str) (cand : Nat → Str)
    (draw : Nat → Nat) (fuel : Nat) (inputdir infile outputdir : Str)
    (listing : List Str) (store0 : Store) (file : Bytes) : Option EncResult :=
  if version = "JigsawFileONE".data then
    match encrypt1Blocks hashF hashlength outputdir cand fuel
        (slicerBlocks slicer blockSize draw file) 0
        { idx := 0, fileList := seedFileList listing, store := store0 } with
    | none => none
    | some (body, st) =>
      some ⟨writeKeyHeaderLines (addHeaderAll
          (headerPairs version inputdir infile hashlength (whole file))) ++ body,
        st.store, st.fileList, (slicerBlocks slicer blockSize draw file).length⟩
  else none

/-! ## Properties of the encode pipeline -/

lemma generateFilename_spec (cand : Nat → Str) :
    ∀ fuel idx fileList nm idx' fl',
      generateFilename cand fuel idx fileList = some (nm, idx', fl') →
      nm ∉ fileList ∧ fl' = fileList ++ [nm] ∧ ∃ j, idx ≤ j ∧ nm = cand j ++ jigExt := by
  intro fuel
  induction fuel with
  | zero =>
    intro idx fl nm i' f' h
    simp [generateFilename] at h
  | succ f ih =>
    intro idx fl nm i' f' h
    simp only [generateFilename] at h
    split at h
    · obtain ⟨h1, h2, j, hj, hnm⟩ := ih (idx + 1) fl nm i' f' h
      exact ⟨h1, h2, j, by omega, hnm⟩
    · rename_i hmem
      simp only [Option.some.injEq, Prod.mk.injEq] at h
      obtain ⟨hnm, _, hf⟩ := h
      subst hnm
      subst hf
      exact ⟨hmem, rfl, idx, le_rfl, rfl⟩

lemma writeJigsawFile_spec (hashF : Bytes → Str) (hl : Nat) (outdir : Str)
    (cand : Nat → Str) (fuel : Nat) (st : GenState) (b : Bytes) (hsh nm : Str)
    (st' : GenState)
    (h : writeJigsawFile hashF hl outdir cand fuel st b = some ((hsh, nm), st')) :
    hsh = (hashF b).take hl ∧ nm ∉ st.fileList ∧
      st'.fileList = st.fileList ++ [nm] ∧
      st'.store = (pathJoin outdir nm, b) :: st.store ∧
      ∃ j, nm = cand j ++ jigExt := by
  unfold writeJigsawFile at h
  cases hg : generateFilename cand fuel st.idx st.fileList with
  | none => rw [hg] at h; simp at h
  | some v =>
    obtain ⟨nm0, idx0, fl0⟩ := v
    rw [hg] at h
    simp only [Option.some.injEq, Prod.mk.injEq] at h
    obtain ⟨⟨hh, hn⟩, hst⟩ := h
    obtain ⟨hnot, hfl, j, _, hnm⟩ :=
      generateFilename_spec cand fuel st.idx st.fileList nm0 idx0 fl0 hg
    subst hh
    subst hn
    subst hst
    subst hfl
    subst hnm
    exact ⟨rfl, hnot, rfl, rfl, j, rfl⟩

/-- The body lines `_encrypt1` emits for given blocks and generated names. -/
def bodyLinesOf (hashF : Bytes → Str) (hashlength : Nat) (outputdir : Str) :
    Nat → List Bytes → List Str → List Str
  | i, b :: bs, nm :: ns =>
    bodyLine outputdir i b nm ((hashF b).take hashlength) ::
      bodyLinesOf hashF hashlength outputdir (i + 1) bs ns
  | _, _, _ => []

/-- The fragment files `_encrypt1` writes, in write order. -/
def storeOf (outputdir : Str) : List Bytes → List Str → Store
  | b :: bs, nm :: ns => (pathJoin outputdir nm, b) :: storeOf outputdir bs ns
  | _, _ => []

lemma bodyLinesOf_length (hashF : Bytes → Str) (hl : Nat) (outdir : Str) :
    ∀ i (bs : List Bytes) (ns : List Str), ns.length = bs.length →
      (bodyLinesOf hashF hl outdir i bs ns).length = bs.length := by
  intro i bs
  induction bs generalizing i with
  | nil => intro ns _; simp [bodyLinesOf]
  | cons b bs ih =>
    intro ns hlen
    cases ns with
    | nil => simp at hlen
    | cons nm ns =>
      simp only [bodyLinesOf, List.length_cons]
      rw [ih (i + 1) ns (by simpa using hlen)]

lemma encrypt1Blocks_spec (hashF : Bytes → Str) (hl : Nat) (outdir : Str)
    (cand : Nat → Str) (fuel : Nat) :
    ∀ (blocks : List Bytes) (count : Nat) (st : GenState) (lines : List Str)
      (st' : GenState),
      encrypt1Blocks hashF hl outdir cand fuel blocks count st = some (lines, st') →
      ∃ names : List Str,
        names.length = blocks.length ∧ names.Nodup ∧
        (∀ nm ∈ names, nm ∉ st.fileList ∧ ∃ j, nm = cand j ++ jigExt) ∧
        st'.fileList = st.fileList ++ names ∧
        st'.store = (storeOf outdir blocks names).reverse ++ st.store ∧
        lines = bodyLinesOf hashF hl outdir count blocks names := by
  intro blocks
  induction blocks with
  | nil =>
    intro count st lines st' h
    simp only [encrypt1Blocks, Option.some.injEq, Prod.mk.injEq] at h
    obtain ⟨h1, h2⟩ := h
    subst h1
    subst h2
    exact ⟨[], by simp [bodyLinesOf, storeOf]⟩
  | cons b bs ih =>
    intro count st lines st' h
    simp only [encrypt1Blocks] at h
    cases hw : writeJigsawFile hashF hl outdir cand fuel st b with
    | none => rw [hw] at h; simp at h
    | some v =>
      obtain ⟨⟨hsh, nm⟩, st1⟩ := v
      rw [hw] at h
      dsimp only at h
      cases he : encrypt1Blocks hashF hl outdir cand fuel bs (count + 1) st1 with
      | none => rw [he] at h; simp at h
      | some w =>
        obtain ⟨ls, st2⟩ := w
        rw [he] at h
        simp only [Option.some.injEq, Prod.mk.injEq] at h
        obtain ⟨hlines, hst⟩ := h
        subst hlines
        subst hst
        obtain ⟨hhsh, hnot, hfl1, hstore1, j, hnm⟩ :=
          writeJigsawFile_spec hashF hl outdir cand fuel st b hsh nm st1 hw
        obtain ⟨names, hlen, hnodup, hprops, hfl2, hstore2, hls⟩ :=
          ih (count + 1) st1 ls st2 he
        refine ⟨nm :: names, by simp [hlen], ?_, ?_, ?_, ?_, ?_⟩
        · rw [List.nodup_cons]
          refine ⟨?_, hnodup⟩
          intro hmem
          have := (hprops nm hmem).1
          rw [hfl1] at this
          exact this (by simp)
        · intro x hx
          rcases List.mem_cons.mp hx with hx | hx
          · subst hx
            exact ⟨hnot, j, hnm⟩
          · obtain ⟨hnx, hex⟩ := hprops x hx
            refine ⟨?_, hex⟩
            intro hmem
            exact hnx (by rw [hfl1]; simp [hmem])
        · rw [hfl2, hfl1]
          simp
        · rw [hstore2, hstore1]
          simp only [storeOf, List.reverse_cons]
          rw [List.append_assoc]
          rfl
        · rw [hls, hhsh]
          rfl

/-- C5: within one encode run no two fragments share a filename (the names
appended past the seeded collision list are pairwise distinct), and the body
lines carry contiguous sequence numbers `0, 1, 2, ...` in slicing order — the
`i`-th emitted body line is `'AA>>' + str(i) + ...` as `bodyLinesOf` shows. -/
theorem claim_C5 (version slicer : Str) (blockSize hashlength : Nat)
    (hashF : Bytes → Str) (whole : Bytes → List Str) (cand : Nat → Str)
    (draw : Nat → Nat) (fuel : Nat) (inputdir infile outputdir : Str)
    (listing : List Str) (store0 : Store) (file : Bytes) (res : EncResult)
    (henc : encryptModel version slicer blockSize hashlength hashF whole cand draw
      fuel inputdir infile outputdir listing store0 file = some res) :
    ∃ names : List Str, names.Nodup ∧
      res.fileList = seedFileList listing ++ names ∧
      names.length = res.count ∧
      res.lines = writeKeyHeaderLines (addHeaderAll (headerPairs version inputdir
          infile hashlength (whole file))) ++
        bodyLinesOf hashF hashlength outputdir 0
          (slicerBlocks slicer blockSize draw file) names := by
  unfold encryptModel at henc
  split_ifs at henc with hv
  cases he : encrypt1Blocks hashF hashlength outputdir cand fuel
      (slicerBlocks slicer blockSize draw file) 0
      { idx := 0, fileList := seedFileList listing, store := store0 } with
  | none => rw [he] at henc; simp at henc
  | some w =>
    obtain ⟨body, st⟩ := w
    rw [he] at henc
    simp only [Option.some.injEq] at henc
    obtain ⟨names, hlen, hnodup, _, hfl, _, hlines⟩ :=
      encrypt1Blocks_spec hashF hashlength outputdir cand fuel _ 0 _ body st he
    refine ⟨names, hnodup, ?_, ?_, ?_⟩
    · rw [← henc]
      exact hfl
    · rw [← henc]
      simp [hlen]
    · rw [← henc, hlines]

/-- C8 (evaluation of the code at the failing input): the output directory
contains `AB.jig`; the seeding of `encrypt` keeps only `AB`
(`x.split('.')[0]`), so `_generateFilename` accepts the candidate `AB` at once
and returns `AB.jig` — a name identical to the `.jig` file already on disk,
which the subsequent write overwrites. -/
theorem claim_C8_code_evaluation :
    seedFileList ["AB.jig".data] = ["AB".data] ∧
      generateFilename (fun _ => "AB".data) 5 0 (seedFileList ["AB.jig".data]) =
        some ("AB.jig".data, 1, ["AB".data, "AB.jig".data]) ∧
      "AB.jig".data ∈ ["AB.jig".data] := by decide

/-- C2 (amended): in fixed mode with block size `B > 0` the yielded blocks are
`⌊L/B⌋` blocks of size `B`, then the remainder block when `B ∤ L`, then one
final empty block — and `_encrypt1` writes one fragment and one body line per
yielded block, the empty final block included. -/
theorem claim_C2 (blockSize : Nat) (file : Bytes) (hB : 0 < blockSize)
    (hashF : Bytes → Str) (hashlength : Nat) (outputdir : Str) (cand : Nat → Str)
    (fuel count : Nat) (st : GenState) (lines : List Str) (st' : GenState)
    (henc : encrypt1Blocks hashF hashlength outputdir cand fuel
      (evenSlicer blockSize file) count st = some (lines, st')) :
    (evenSlicer blockSize file).map List.length =
      List.replicate (file.length / blockSize) blockSize ++
        (if file.length % blockSize = 0 then [0] else [file.length % blockSize, 0]) ∧
      lines.length = (evenSlicer blockSize file).length := by
  refine ⟨evenSlicer_map_length blockSize hB file, ?_⟩
  obtain ⟨names, hlen, _, _, _, _, hlines⟩ :=
    encrypt1Blocks_spec hashF hashlength outputdir cand fuel _ count st lines st' henc
  rw [hlines]
  exact bodyLinesOf_length hashF hashlength outputdir count _ names hlen

/-- C2 counterexample: a 10,000-byte file with fixed block size 4096 yields
four blocks of sizes 4096, 4096, 1808 and 0 — not three — because the slicer
also yields the final empty read, which becomes a zero-byte fourth fragment. -/
theorem claim_C2_counterexample :
    (evenSlicer 4096 (List.replicate 10000 0)).map List.length =
        [4096, 4096, 1808, 0] ∧
      (evenSlicer 4096 (List.replicate 10000 0)).length = 4 := by
  have h := evenSlicer_map_length 4096 (by norm_num) (List.replicate 10000 0)
  rw [List.length_replicate] at h
  refine ⟨?_, ?_⟩
  · rw [h]
    decide
  · have h2 : (evenSlicer 4096 (List.replicate 10000 0)).length =
        ((evenSlicer 4096 (List.replicate 10000 0)).map List.length).length :=
      (List.length_map _ _).symm
    rw [h2, h]
    decide

/-! ## Concrete data for witnesses -/

/-- Candidate-name stream drawing successive alphabet characters. -/
def candW : Nat → Str := fun i => [mapping.getD i '1']

/-- A constant stand-in block hash. -/
def hashW : Bytes → Str := fun _ => "h".data

/-- A stand-in whole-file digest list. -/
def wholeW : Bytes → List Str := fun _ => []

def RES5 : EncResult :=
  { lines := ["#version>>JigsawFileONE".data, "#inputdir>>i".data, "#infile>>f".data,
      "#hashlength>>1".data, "#md5>>".data, "#sha1>>".data, "#sha224>>".data,
      "#sha256>>".data, "#sha384>>".data, "#sha512>>".data,
      "AA>>0>>1>>d>>1.jig>>h".data, "AA>>1>>0>>d>>2.jig>>h".data]
    store := [("d/2.jig".data, []), ("d/1.jig".data, [7])]
    fileList := ["1.jig".data, "2.jig".data]
    count := 2 }

theorem claim_C5_witness :
    encryptModel "JigsawFileONE".data "even".data 1 1 hashW wholeW candW
        (fun _ => 0) 2 "i".data "f".data "d".data [] [] [7] = some RES5 ∧
      (∃ names : List Str, names.Nodup ∧
        RES5.fileList = seedFileList [] ++ names ∧
        names.length = RES5.count ∧
        RES5.lines = writeKeyHeaderLines (addHeaderAll (headerPairs
            "JigsawFileONE".data "i".data "f".data 1 (wholeW [7]))) ++
          bodyLinesOf hashW 1 "d".data 0
            (slicerBlocks "even".data 1 (fun _ => 0) [7]) names) :=
  ⟨by decide, claim_C5 "JigsawFileONE".data "even".data 1 1 hashW wholeW candW
    (fun _ => 0) 2 "i".data "f".data "d".data [] [] [7] RES5 (by decide)⟩

def LINES2 : List Str :=
  ["AA>>0>>2>>d>>1.jig>>h".data, "AA>>1>>1>>d>>2.jig>>h".data,
    "AA>>2>>0>>d>>3.jig>>h".data]

def ST2 : GenState :=
  { idx := 3, fileList := ["1.jig".data, "2.jig".data, "3.jig".data],
    store := [("d/3.jig".data, []), ("d/2.jig".data, [7]), ("d/1.jig".data, [5, 6])] }

theorem claim_C2_witness :
    encrypt1Blocks hashW 1 "d".data candW 2 (evenSlicer 2 [5, 6, 7]) 0
        ⟨0, [], []⟩ = some (LINES2, ST2) ∧
      ((evenSlicer 2 [5, 6, 7]).map List.length =
          List.replicate (([5, 6, 7] : Bytes).length / 2) 2 ++
            (if ([5, 6, 7] : Bytes).length % 2 = 0 then [0]
              else [([5, 6, 7] : Bytes).length % 2, 0]) ∧
        LINES2.length = (evenSlicer 2 [5, 6, 7]).length) :=
  ⟨by decide, claim_C2 2 [5, 6, 7] (by decide) hashW 1 "d".data candW 2 0
    ⟨0, [], []⟩ LINES2 ST2 (by decide)⟩

/-! ## Decode pipeline (`_readKeyFile` lines 499-540, `_decrypt1` lines
657-683, `_compareHash` lines 685-716, `decrypt` lines 718-751) -/

/-- Python dict lookup on the body map keyed by `int` block sequence. -/
def lookupCode : List (Int × List Str) → Int → Option (List Str)
  | [], _ => none
  | p :: rest, k => if p.1 = k then some p.2 else lookupCode rest k

/-- Python dict assignment on the body map. -/
def updCode (m : List (Int × List Str)) (k : Int) (v : List Str) :
    List (Int × List Str) :=
  if k ∈ m.map Prod.fst then
    m.map (fun p => if p.1 = k then (k, v) else p)
  else m ++ [(k, v)]

/-- `_readKeyFile` lines 516-517: split a body line on the delimiter and strip
each field. -/
def parseFields (line : Str) : List Str := (splitDelim line).map pyStrip

/-- One step of the body loop (lines 536-540): key the parsed fields by
`int(x[1])`, store `x[2:]`.  `none` models the `IndexError` of `x[1]` on a
short line and the `ValueError` of `int`. -/
def readCodeLine (m : List (Int × List Str)) (x : List Str) :
    Option (List (Int × List Str)) :=
  match x.get? 1 with
  | none => none
  | some s =>
    match pyInt s with
    | none => none
    | some k => some (updCode m k (x.drop 2))

/-- The `'AA'` body map of `_readKeyFile` (lines 514-540).  The nested loop
`for section in codeset: for x in code: ...` stores every parsed line into
every section, so the `'AA'` map holds all body lines keyed by sequence; it
exists only when some line carries scheme code `'AA'` (`_decrypt1`'s
`self.keycode['AA']` raises otherwise, and an empty body leaves `keycode`
empty with the same effect). -/
def readKeyCode (lines : List Str) : Option (List (Int × List Str)) :=
  if AA ∈ ((codeLinesOf lines).map parseFields).map (fun x => x.headD []) then
    ((codeLinesOf lines).map parseFields).foldlM readCodeLine []
  else none

/-- Accumulator of the `_decrypt1` loop: reconstructed bytes, audit (`.jkd`)
lines, expected and actual byte counts. -/
structure DecRun where
  output : Bytes
  audit : List Str
  expected : Int
  actual : Nat
deriving DecidableEq

/-- `_decryptVerbosity` (lines 617-634): the data line is written to the
audit file at verbosity 1 or 2 only. -/
def decryptVerbosity (verbose : Int) (audit : List Str) (data : Str) : List Str :=
  if verbose = 1 then audit ++ [data]
  else if verbose = 2 then audit ++ [data]
  else audit

/-- One iteration of the `_decrypt1` loop (lines 669-681): look up the entry,
read the fragment, recompute its truncated hash, append the block to the
output and the data line to the audit, and update the byte accounting. -/
def decryptStep (m : List (Int × List Str)) (inputdir : Str) (store : Store)
    (hashF : Bytes → Str) (hashlength : Int) (verbose : Int) (acc : DecRun)
    (b : Int) : Option DecRun :=
  match lookupCode m b with
  | none => none
  | some entry =>
    match entry.get? 2 with
    | none => none
    | some fn =>
      match readStore store (pathJoin inputdir fn) with
      | none => none
      | some block =>
        match entry.get? 0 with
        | none => none
        | some bsStr =>
          match entry.get? 3 with
          | none => none
          | some e3 =>
            match pyInt bsStr with
            | none => none
            | some bsInt =>
              some { output := acc.output ++ block
                     audit := decryptVerbosity verbose acc.audit
                       (joinDelim [intStr b, pathJoin inputdir fn, bsStr,
                         natDigits block.length, e3,
                         pySliceTo (hashF block) hashlength])
                     expected := acc.expected + bsInt
                     actual := acc.actual + block.length }

/-- `_decryptSummary` (lines 636-655): the three trailing audit lines. -/
def summaryLines (n : Nat) (expected : Int) (actual : Nat) : List Str :=
  [natDigits n ++ " Jigsaw files processed ".data,
    "Expected number of bytes: ".data ++ intStr expected ++ " ".data,
    "Actual number of bytes  : ".data ++ natDigits actual ++ " ".data]

/-- `_decrypt1` (lines 657-683): sort the sequence keys ascending, run the
per-fragment loop in that order, then append the summary. -/
def decrypt1 (m : List (Int × List Str)) (inputdir : Str) (store : Store)
    (hashF : Bytes → Str) (hashlength : Int) (verbose : Int) : Option DecRun :=
  match (List.insertionSort (· ≤ ·) (m.map Prod.fst)).foldlM
      (decryptStep m inputdir store hashF hashlength verbose)
      { output := [], audit := [], expected := 0, actual := 0 } with
  | none => none
  | some acc =>
    some { acc with audit :=
      (acc.audit ++ summaryLines (List.insertionSort (· ≤ ·) (m.map Prod.fst)).length
        acc.expected acc.actual) }

/-- `_compareHash` (lines 685-716): recompute the six whole-file digests of
the output and write them next to the header digests; `none` models the
`KeyError` when a digest field is missing from the key file. -/
def compareHashLines (whole : Bytes → List Str) (keyhead : List (Str × Str))
    (out : Bytes) : Option (List Str) :=
  match lookupStr keyhead "md5".data, lookupStr keyhead "sha1".data,
      lookupStr keyhead "sha224".data, lookupStr keyhead "sha256".data,
      lookupStr keyhead "sha384".data, lookupStr keyhead "sha512".data with
  | some m5, some s1, some s224, some s256, some s384, some s512 =>
    some ["File Hashs (Decrypted File vs Original Unencrypted File) ".data,
      "md5: ".data ++ (whole out).getD 0 [] ++ " ".data,
      "  vs ".data ++ m5 ++ " ".data,
      "sha1: ".data ++ (whole out).getD 1 [] ++ " ".data,
      "  vs  ".data ++ s1 ++ " ".data,
      "sha224: ".data ++ (whole out).getD 2 [] ++ " ".data,
      "  vs    ".data ++ s224 ++ " ".data,
      "sha256: ".data ++ (whole out).getD 3 [] ++ " ".data,
      "  vs    ".data ++ s256 ++ " ".data,
      "sha384: ".data ++ (whole out).getD 4 [] ++ " ".data,
      "  vs    ".data ++ s384 ++ " ".data,
      "sha512: ".data ++ (whole out).getD 5 [] ++ " ".data,
      "  vs    ".data ++ s512 ++ " ".data]
  | _, _, _, _, _, _ => none

structure DecResult where
  output : Bytes
  audit : List Str
deriving DecidableEq

/-- `JigsawFile.decrypt` (lines 718-751) with explicit output name and
fragment directory (the no-inference path of `_setDecryptDir`): parse the key
file, require the `JigsawFileONE` version tag (without it `_decrypt1` never
runs and `_compareHash` reads a file that was never written), reconstruct,
then append the `_compareHash` audit lines. -/
def decryptModel (whole : Bytes → List Str) (hashF : Bytes → Str)
    (lines : List Str) (store : Store) (inputdir : Str) (verbose : Int) :
    Option DecResult :=
  match readKeyHead lines with
  | none => none
  | some keyhead =>
    match lookupStr keyhead "hashlength".data with
    | none => none
    | some hlStr =>
      match pyInt hlStr with
      | none => none
      | some hl =>
        match readKeyCode lines with
        | none => none
        | some m =>
          if lookupStr keyhead "version".data = some "JigsawFileONE".data then
            match decrypt1 m inputdir store hashF hl verbose with
            | none => none
            | some acc =>
              match compareHashLines whole keyhead acc.output with
              | none => none
              | some chl => some { output := acc.output, audit := acc.audit ++ chl }
          else none

/-! ## Round-trip lemmas: generated key-file lines parse back exactly -/

lemma mapping_props : ∀ c ∈ mapping, isWS c = false ∧ c ≠ '>' ∧ c ≠ '#' := by decide

lemma jigExt_props : ∀ c ∈ jigExt, isWS c = false ∧ c ≠ '>' ∧ c ≠ '#' := by decide

lemma name_props (cand : Nat → Str) (hc : ∀ i c, c ∈ cand i → c ∈ mapping) (j : Nat) :
    ∀ c ∈ cand j ++ jigExt, isWS c = false ∧ c ≠ '>' ∧ c ≠ '#' := by
  intro c hmem
  rcases List.mem_append.mp hmem with h | h
  · exact mapping_props c (hc j c h)
  · exact jigExt_props c h

lemma AA_props : ∀ c ∈ AA, isWS c = false ∧ c ≠ '>' ∧ c ≠ '#' := by decide

lemma digits_props (n : Nat) : ∀ c ∈ natDigits n, isWS c = false ∧ c ≠ '>' ∧ c ≠ '#' := by
  intro c hc
  have h := DIGITS_props c (natDigits_subset_DIGITS n c hc)
  exact ⟨h.1, h.2.1, h.2.2.1⟩

lemma joinDelim_concat_decomp :
    ∀ (fs : List Str) (f : Str), fs ≠ [] →
      ∃ P, joinDelim (fs ++ [f]) = P ++ '>' :: '>' :: f := by
  intro fs
  induction fs with
  | nil => intro f h; exact absurd rfl h
  | cons x xs ih =>
    intro f _
    cases xs with
    | nil => exact ⟨x, rfl⟩
    | cons y t =>
      obtain ⟨P, hP⟩ := ih f (by simp)
      refine ⟨x ++ '>' :: '>' :: P, ?_⟩
      have h1 : (x :: y :: t) ++ [f] = x :: ((y :: t) ++ [f]) := rfl
      rw [h1]
      show x ++ '>' :: '>' :: joinDelim ((y :: t) ++ [f]) = _
      rw [hP]
      simp

lemma getLast?_append_delim (P v : Str) (c : Char)
    (hc : (P ++ '>' :: '>' :: v).getLast? = some c) : c ∈ v ∨ c = '>' := by
  induction v using List.reverseRecOn with
  | nil =>
    right
    have h1 : P ++ ['>', '>'] = (P ++ ['>']) ++ ['>'] := by simp
    have : (P ++ '>' :: '>' :: ([] : Str)).getLast? = some '>' := by
      show (P ++ ['>', '>']).getLast? = some '>'
      rw [h1]
      exact List.getLast?_concat _
    rw [this] at hc
    cases hc
    rfl
  | append_singleton w x _ =>
    left
    have h1 : P ++ '>' :: '>' :: (w ++ [x]) = (P ++ '>' :: '>' :: w) ++ [x] := by simp
    rw [h1, List.getLast?_concat] at hc
    cases hc
    simp

lemma pyStrip_eq_self_of_edges (s : Str)
    (h1 : ∀ c, s.head? = some c → isWS c = false)
    (h2 : ∀ c, s.getLast? = some c → isWS c = false) : pyStrip s = s := by
  unfold pyStrip
  rw [dropWhile_eq_self_of_head s h1, rstripWS_eq_self s h2]

lemma pyStrip_bodyLine (outdir : Str) (i : Nat) (b : Bytes) (nm hsh : Str)
    (hhsh : ∀ c ∈ hsh, isWS c = false) :
    pyStrip (bodyLine outdir i b nm hsh) = bodyLine outdir i b nm hsh := by
  apply pyStrip_eq_self_of_edges
  · intro c hc
    have hhead : (bodyLine outdir i b nm hsh).head? = some 'A' := rfl
    rw [hhead] at hc
    cases hc
    decide
  · intro c hc
    obtain ⟨P, hP⟩ := joinDelim_concat_decomp
      [AA, natDigits i, natDigits b.length, outdir, nm] hsh (by simp)
    have hb : bodyLine outdir i b nm hsh = P ++ '>' :: '>' :: hsh := hP
    rw [hb] at hc
    rcases getLast?_append_delim P hsh c hc with h | h
    · exact hhsh c h
    · subst h; decide


lemma not_gt_mem {s : Str} (h : ∀ c ∈ s, c ≠ '>') : '>' ∉ s :=
  fun hm => h '>' hm rfl

lemma parseFields_bodyLine (outdir : Str) (i : Nat) (b : Bytes) (nm hsh : Str)
    (hout : '>' ∉ outdir)
    (hnm : ∀ c ∈ nm, isWS c = false ∧ c ≠ '>')
    (hhsh : ∀ c ∈ hsh, isWS c = false ∧ c ≠ '>') :
    parseFields (bodyLine outdir i b nm hsh) =
      [AA, natDigits i, natDigits b.length, pyStrip outdir, nm, hsh] := by
  unfold parseFields bodyLine
  rw [splitDelim_joinDelim _ (by simp) ?hfields]
  case hfields =>
    intro f hf
    simp only [List.mem_cons, List.not_mem_nil, or_false] at hf
    rcases hf with h | h | h | h | h | h <;> subst h
    · exact not_gt_mem (fun c hc => (AA_props c hc).2.1)
    · exact not_gt_mem (fun c hc => (digits_props i c hc).2.1)
    · exact not_gt_mem (fun c hc => (digits_props b.length c hc).2.1)
    · exact hout
    · exact not_gt_mem (fun c hc => (hnm c hc).2)
    · exact not_gt_mem (fun c hc => (hhsh c hc).2)
  simp only [List.map_cons, List.map_nil]
  rw [pyStrip_eq_self_of_all AA (fun c hc => (AA_props c hc).1),
    pyStrip_natDigits, pyStrip_natDigits,
    pyStrip_eq_self_of_all nm (fun c hc => (hnm c hc).1),
    pyStrip_eq_self_of_all hsh (fun c hc => (hhsh c hc).1)]

lemma cleanKeyLines_append (l1 l2 : List Str) :
    cleanKeyLines (l1 ++ l2) = cleanKeyLines l1 ++ cleanKeyLines l2 := by
  simp [cleanKeyLines]

lemma headerLinesOf_append (l1 l2 : List Str) :
    headerLinesOf (l1 ++ l2) = headerLinesOf l1 ++ headerLinesOf l2 := by
  simp [headerLinesOf, cleanKeyLines_append]

lemma codeLinesOf_append (l1 l2 : List Str) :
    codeLinesOf (l1 ++ l2) = codeLinesOf l1 ++ codeLinesOf l2 := by
  simp [codeLinesOf, cleanKeyLines_append]

lemma bodyLine_head (outdir : Str) (i : Nat) (b : Bytes) (nm hsh : Str) :
    (bodyLine outdir i b nm hsh).head? = some 'A' := rfl

lemma bodyLine_ne_nil (outdir : Str) (i : Nat) (b : Bytes) (nm hsh : Str) :
    bodyLine outdir i b nm hsh ≠ [] := by
  intro h
  have := bodyLine_head outdir i b nm hsh
  rw [h] at this
  simp at this

lemma bodyLines_clean (hashF : Bytes → Str) (hlN : Nat) (outdir : Str)
    (hhash : ∀ b c, c ∈ hashF b → isWS c = false) :
    ∀ (i : Nat) (blocks : List Bytes) (names : List Str),
      cleanKeyLines (bodyLinesOf hashF hlN outdir i blocks names) =
        bodyLinesOf hashF hlN outdir i blocks names := by
  intro i blocks
  induction blocks generalizing i with
  | nil => intro names; simp [bodyLinesOf, cleanKeyLines]
  | cons b bs ih =>
    intro names
    cases names with
    | nil => simp [bodyLinesOf, cleanKeyLines]
    | cons nm ns =>
      have hstrip := pyStrip_bodyLine outdir i b nm ((hashF b).take hlN)
        (fun c hc => hhash b c (List.take_subset hlN (hashF b) hc))
      simp only [bodyLinesOf, cleanKeyLines, List.map_cons, List.filter_cons]
      rw [hstrip]
      rw [if_pos (by simp [bodyLine_ne_nil])]
      have := ih (i + 1) ns
      simp only [cleanKeyLines] at this
      rw [this]

lemma bodyLines_headerLines (hashF : Bytes → Str) (hlN : Nat) (outdir : Str)
    (hhash : ∀ b c, c ∈ hashF b → isWS c = false) (i : Nat) (blocks : List Bytes)
    (names : List Str) :
    headerLinesOf (bodyLinesOf hashF hlN outdir i blocks names) = [] := by
  unfold headerLinesOf
  rw [bodyLines_clean hashF hlN outdir hhash i blocks names]
  rw [List.filter_eq_nil_iff]
  intro l hl
  induction blocks generalizing i names with
  | nil => simp [bodyLinesOf] at hl
  | cons b bs ih =>
    cases names with
    | nil => simp [bodyLinesOf] at hl
    | cons nm ns =>
      simp only [bodyLinesOf, List.mem_cons] at hl
      rcases hl with hl | hl
      · subst hl
        simp [bodyLine_head]
      · exact ih (i + 1) ns hl

lemma bodyLines_codeLines (hashF : Bytes → Str) (hlN : Nat) (outdir : Str)
    (hhash : ∀ b c, c ∈ hashF b → isWS c = false) (i : Nat) (blocks : List Bytes)
    (names : List Str) :
    codeLinesOf (bodyLinesOf hashF hlN outdir i blocks names) =
      bodyLinesOf hashF hlN outdir i blocks names := by
  unfold codeLinesOf
  rw [bodyLines_clean hashF hlN outdir hhash i blocks names]
  rw [List.filter_eq_self]
  intro l hl
  induction blocks generalizing i names with
  | nil => simp [bodyLinesOf] at hl
  | cons b bs ih =>
    cases names with
    | nil => simp [bodyLinesOf] at hl
    | cons nm ns =>
      simp only [bodyLinesOf, List.mem_cons] at hl
      rcases hl with hl | hl
      · subst hl
        simp [bodyLine_head]
      · exact ih (i + 1) ns hl

lemma readKeyHead_append (pairs : List (Str × Str)) (body : List Str)
    (hbody : headerLinesOf body = []) :
    readKeyHead (writeKeyHeaderLines (addHeaderAll pairs) ++ body) =
      readKeyHead (writeKeyHeaderLines (addHeaderAll pairs)) := by
  unfold readKeyHead
  rw [headerLinesOf_append, hbody, List.append_nil]

lemma header_codeLines_nil (pairs : List (Str × Str))
    (hkeys : (pairs.map Prod.fst).Nodup)
    (hk : ∀ p ∈ pairs, (∀ c ∈ p.1, isWS c = false ∧ c ≠ '>') ∧
      p.1.head? ≠ some '#') :
    codeLinesOf (writeKeyHeaderLines (addHeaderAll pairs)) = [] := by
  have haddall : addHeaderAll pairs = pairs.map (fun p => ('#' :: p.1, p.2)) := by
    unfold addHeaderAll
    rw [addHeader_foldl pairs [] (fun p hp => (hk p hp).2) (by simp) hkeys]
    simp
  rw [haddall]
  have hlines : writeKeyHeaderLines (pairs.map (fun p => ('#' :: p.1, p.2))) =
      pairs.map (fun p => ('#' :: p.1) ++ '>' :: '>' :: p.2) := by
    unfold writeKeyHeaderLines
    rw [List.map_map]
    apply List.map_congr_left
    intro p _
    rfl
  rw [hlines]
  unfold codeLinesOf cleanKeyLines
  rw [List.map_map]
  rw [List.filter_eq_nil_iff]
  intro l hl
  rw [List.mem_filter] at hl
  obtain ⟨hl, _⟩ := hl
  simp only [List.mem_map, Function.comp_apply] at hl
  obtain ⟨p, _, hp⟩ := hl
  subst hp
  rw [pyStrip_header_line]
  simp

lemma readKeyCode_append (hdrlines body : List Str)
    (hhdr : codeLinesOf hdrlines = []) :
    readKeyCode (hdrlines ++ body) = readKeyCode body := by
  unfold readKeyCode
  rw [codeLinesOf_append, hhdr, List.nil_append]

/-- The `'AA'` body-map entries that the generated body lines parse back to:
sequence `i` maps to `[str(len), stripped outputdir, name, truncated hash]`. -/
def codeEntriesOf (hashF : Bytes → Str) (hlN : Nat) (dir' : Str) :
    Nat → List Bytes → List Str → List (Int × List Str)
  | i, b :: bs, nm :: ns =>
    ((i : Int), [natDigits b.length, dir', nm, (hashF b).take hlN]) ::
      codeEntriesOf hashF hlN dir' (i + 1) bs ns
  | _, _, _ => []

lemma readCode_fold (hashF : Bytes → Str) (hlN : Nat) (outdir : Str)
    (hout : '>' ∉ outdir)
    (hhash : ∀ b c, c ∈ hashF b → isWS c = false ∧ c ≠ '>') :
    ∀ (blocks : List Bytes) (names : List Str) (i : Nat)
      (m0 : List (Int × List Str)),
      names.length = blocks.length →
      (∀ nm ∈ names, ∀ c ∈ nm, isWS c = false ∧ c ≠ '>') →
      (∀ k ∈ m0.map Prod.fst, ∀ j : Nat, i ≤ j → (j : Int) ≠ k) →
      ((bodyLinesOf hashF hlN outdir i blocks names).map parseFields).foldlM
          readCodeLine m0 =
        some (m0 ++ codeEntriesOf hashF hlN (pyStrip outdir) i blocks names) := by
  intro blocks
  induction blocks with
  | nil =>
    intro names i m0 hlen _ _
    have : names = [] := List.eq_nil_of_length_eq_zero (by simpa using hlen)
    subst this
    simp [bodyLinesOf, codeEntriesOf, List.foldlM]
  | cons b bs ih =>
    intro names i m0 hlen hnm hfresh
    cases names with
    | nil => simp at hlen
    | cons nm ns =>
      simp only [bodyLinesOf, codeEntriesOf, List.map_cons, List.foldlM_cons]
      rw [parseFields_bodyLine outdir i b nm ((hashF b).take hlN) hout
        (hnm nm (List.mem_cons_self nm ns))
        (fun c hc => hhash b c (List.take_subset hlN (hashF b) hc))]
      have hstep : readCodeLine m0
          [AA, natDigits i, natDigits b.length, pyStrip outdir, nm,
            (hashF b).take hlN] =
          some (m0 ++ [((i : Int),
            [natDigits b.length, pyStrip outdir, nm, (hashF b).take hlN])]) := by
        unfold readCodeLine
        simp only [List.get?]
        rw [pyInt_natDigits i]
        dsimp only
        unfold updCode
        rw [if_neg]
        · rfl
        · intro hmem
          exact hfresh (i : Int) hmem i le_rfl rfl
      rw [hstep]
      simp only [Option.bind_eq_bind, Option.some_bind]
      rw [ih ns (i + 1) _ (by simpa using hlen)
        (fun q hq => hnm q (List.mem_cons_of_mem nm hq))
        (fun k hk j hj => by
          simp only [List.map_append, List.mem_append] at hk
          rcases hk with hk | hk
          · exact hfresh k hk j (by omega)
          · simp only [List.map_cons, List.map_nil, List.mem_singleton] at hk
            subst hk
            intro hcast
            have : j = i := by exact_mod_cast hcast
            omega)]
      simp

lemma readKeyCode_generated (hashF : Bytes → Str) (hlN : Nat) (outdir : Str)
    (hout : '>' ∉ outdir)
    (hhash : ∀ b c, c ∈ hashF b → isWS c = false ∧ c ≠ '>')
    (blocks : List Bytes) (names : List Str)
    (hne : blocks ≠ []) (hlen : names.length = blocks.length)
    (hnm : ∀ nm ∈ names, ∀ c ∈ nm, isWS c = false ∧ c ≠ '>') :
    readKeyCode (bodyLinesOf hashF hlN outdir 0 blocks names) =
      some (codeEntriesOf hashF hlN (pyStrip outdir) 0 blocks names) := by
  unfold readKeyCode
  rw [bodyLines_codeLines hashF hlN outdir (fun b c hc => (hhash b c hc).1) 0 blocks
    names]
  cases blocks with
  | nil => exact absurd rfl hne
  | cons b bs =>
    cases names with
    | nil => simp at hlen
    | cons nm ns =>
      rw [if_pos ?hmem]
      case hmem =>
        simp only [bodyLinesOf, List.map_cons]
        rw [parseFields_bodyLine outdir 0 b nm ((hashF b).take hlN) hout
          (hnm nm (List.mem_cons_self nm ns))
          (fun c hc => hhash b c (List.take_subset hlN (hashF b) hc))]
        simp
      exact readCode_fold hashF hlN outdir hout hhash (b :: bs) (nm :: ns) 0 []
        hlen hnm (by simp)

lemma codeEntries_keys_lb (hashF : Bytes → Str) (hlN : Nat) (dir' : Str) :
    ∀ (i : Nat) (blocks : List Bytes) (names : List Str) (k : Int),
      k ∈ (codeEntriesOf hashF hlN dir' i blocks names).map Prod.fst →
      (i : Int) ≤ k := by
  intro i blocks
  induction blocks generalizing i with
  | nil => intro names k hk; simp [codeEntriesOf] at hk
  | cons b bs ih =>
    intro names k hk
    cases names with
    | nil => simp [codeEntriesOf] at hk
    | cons nm ns =>
      simp only [codeEntriesOf, List.map_cons, List.mem_cons] at hk
      rcases hk with hk | hk
      · omega
      · have := ih (i + 1) ns k hk
        omega

lemma codeEntries_keys_sorted (hashF : Bytes → Str) (hlN : Nat) (dir' : Str) :
    ∀ (i : Nat) (blocks : List Bytes) (names : List Str),
      List.Sorted (· ≤ ·)
        ((codeEntriesOf hashF hlN dir' i blocks names).map Prod.fst) := by
  intro i blocks
  induction blocks generalizing i with
  | nil => intro names; simp [codeEntriesOf]
  | cons b bs ih =>
    intro names
    cases names with
    | nil => simp [codeEntriesOf]
    | cons nm ns =>
      simp only [codeEntriesOf, List.map_cons]
      rw [List.sorted_cons]
      refine ⟨?_, ih (i + 1) ns⟩
      intro k hk
      have := codeEntries_keys_lb hashF hlN dir' (i + 1) bs ns k hk
      omega

lemma codeEntries_keys_nodup (hashF : Bytes → Str) (hlN : Nat) (dir' : Str) :
    ∀ (i : Nat) (blocks : List Bytes) (names : List Str),
      ((codeEntriesOf hashF hlN dir' i blocks names).map Prod.fst).Nodup := by
  intro i blocks
  induction blocks generalizing i with
  | nil => intro names; simp [codeEntriesOf]
  | cons b bs ih =>
    intro names
    cases names with
    | nil => simp [codeEntriesOf]
    | cons nm ns =>
      simp only [codeEntriesOf, List.map_cons, List.nodup_cons]
      refine ⟨?_, ih (i + 1) ns⟩
      intro hk
      have := codeEntries_keys_lb hashF hlN dir' (i + 1) bs ns (i : Int) hk
      omega

lemma lookupCode_self_of_nodup :
    ∀ (m : List (Int × List Str)), (m.map Prod.fst).Nodup →
      ∀ e ∈ m, lookupCode m e.1 = some e.2 := by
  intro m
  induction m with
  | nil => intro _ e he; simp at he
  | cons p rest ih =>
    intro hnodup e he
    simp only [List.map_cons, List.nodup_cons] at hnodup
    rcases List.mem_cons.mp he with he | he
    · subst he
      simp [lookupCode]
    · unfold lookupCode
      rw [if_neg]
      · exact ih hnodup.2 e he
      · intro hpe
        have : e.1 ∈ rest.map Prod.fst := List.mem_map_of_mem Prod.fst he
        rw [← hpe] at this
        exact hnodup.1 this

/-! ## Decode of a generated key file -/

lemma decryptStep_eq (m : List (Int × List Str)) (indir dir' : Str) (store : Store)
    (hashF : Bytes → Str) (hl v : Int) (acc : DecRun) (b : Int) (nm hsh : Str)
    (blk : Bytes)
    (hlook : lookupCode m b = some [natDigits blk.length, dir', nm, hsh])
    (hread : readStore store (pathJoin indir nm) = some blk) :
    decryptStep m indir store hashF hl v acc b =
      some { output := acc.output ++ blk
             audit := decryptVerbosity v acc.audit
               (joinDelim [intStr b, pathJoin indir nm, natDigits blk.length,
                 natDigits blk.length, hsh, pySliceTo (hashF blk) hl])
             expected := acc.expected + (blk.length : Int)
             actual := acc.actual + blk.length } := by
  unfold decryptStep
  rw [hlook]
  simp only [List.get?]
  rw [hread]
  simp only [pyInt_natDigits blk.length]

lemma decrypt_fold_entries (m : List (Int × List Str)) (indir dir' : Str)
    (store : Store) (hashF : Bytes → Str) (hl v : Int) :
    ∀ (es : List (Int × List Str)) (blks : List Bytes) (acc : DecRun),
      List.Forall₂ (fun (e : Int × List Str) (blk : Bytes) =>
        lookupCode m e.1 = some e.2 ∧
        ∃ nm hsh, e.2 = [natDigits blk.length, dir', nm, hsh] ∧
          readStore store (pathJoin indir nm) = some blk) es blks →
      ∃ acc',
        (es.map Prod.fst).foldlM (decryptStep m indir store hashF hl v) acc =
          some acc' ∧ acc'.output = acc.output ++ blks.flatten := by
  intro es blks acc h
  induction h generalizing acc with
  | nil => exact ⟨acc, by simp [List.foldlM], by simp⟩
  | @cons e blk es' blks' hpair hrest ih =>
    obtain ⟨hlook, nm, hsh, hent, hread⟩ := hpair
    rw [hent] at hlook
    simp only [List.map_cons, List.foldlM_cons]
    rw [decryptStep_eq m indir dir' store hashF hl v acc e.1 nm hsh blk hlook hread]
    simp only [Option.bind_eq_bind, Option.some_bind]
    obtain ⟨acc', hfold, hout⟩ := ih _
    refine ⟨acc', hfold, ?_⟩
    rw [hout]
    simp

lemma storeOf_map_fst (outdir : Str) :
    ∀ (blocks : List Bytes) (names : List Str), names.length = blocks.length →
      (storeOf outdir blocks names).map Prod.fst = names.map (pathJoin outdir) := by
  intro blocks
  induction blocks with
  | nil =>
    intro names hlen
    have : names = [] := List.eq_nil_of_length_eq_zero (by simpa using hlen)
    subst this
    simp [storeOf]
  | cons b bs ih =>
    intro names hlen
    cases names with
    | nil => simp at hlen
    | cons nm ns =>
      simp only [storeOf, List.map_cons]
      rw [ih ns (by simpa using hlen)]

lemma pathJoin_injective (d : Str) : Function.Injective (pathJoin d) := by
  intro n1 n2 h
  unfold pathJoin at h
  have := List.append_cancel_left h
  injection this

lemma readStore_of_mem :
    ∀ (S rest : Store) (path : Str) (b : Bytes),
      (S.map Prod.fst).Nodup → (path, b) ∈ S →
      readStore (S ++ rest) path = some b := by
  intro S
  induction S with
  | nil => intro rest path b _ hmem; simp at hmem
  | cons p S ih =>
    intro rest path b hnodup hmem
    simp only [List.map_cons, List.nodup_cons] at hnodup
    rcases List.mem_cons.mp hmem with hmem | hmem
    · subst hmem
      simp [readStore]
    · show readStore ((p :: S) ++ rest) path = some b
      rw [List.cons_append]
      unfold readStore
      rw [if_neg]
      · exact ih rest path b hnodup.2 hmem
      · intro hpe
        have : path ∈ S.map Prod.fst := by
          have := List.mem_map_of_mem Prod.fst hmem
          simpa using this
        rw [← hpe] at this
        exact hnodup.1 this

lemma storeOf_mem_zip (outdir : Str) :
    ∀ (blocks : List Bytes) (names : List Str), names.length = blocks.length →
      ∀ p ∈ blocks.zip names, (pathJoin outdir p.2, p.1) ∈ storeOf outdir blocks names := by
  intro blocks
  induction blocks with
  | nil => intro names _ p hp; simp at hp
  | cons b bs ih =>
    intro names hlen p hp
    cases names with
    | nil => simp at hp
    | cons nm ns =>
      simp only [List.zip_cons_cons, List.mem_cons] at hp
      rcases hp with hp | hp
      · subst hp
        simp [storeOf]
      · simp only [storeOf, List.mem_cons]
        right
        exact ih ns (by simpa using hlen) p hp

lemma codeEntries_length (hashF : Bytes → Str) (hlN : Nat) (dir' : Str) :
    ∀ (i : Nat) (blocks : List Bytes) (names : List Str),
      names.length = blocks.length →
      (codeEntriesOf hashF hlN dir' i blocks names).length = blocks.length := by
  intro i blocks
  induction blocks generalizing i with
  | nil => intro names _; simp [codeEntriesOf]
  | cons b bs ih =>
    intro names hlen
    cases names with
    | nil => simp at hlen
    | cons nm ns =>
      simp only [codeEntriesOf, List.length_cons]
      rw [ih (i + 1) ns (by simpa using hlen)]

lemma codeEntries_zip_shape (hashF : Bytes → Str) (hlN : Nat) (dir' : Str) :
    ∀ (i : Nat) (blocks : List Bytes) (names : List Str),
      names.length = blocks.length →
      ∀ p ∈ (codeEntriesOf hashF hlN dir' i blocks names).zip blocks,
        ∃ nm, p.1.2 = [natDigits p.2.length, dir', nm, (hashF p.2).take hlN] ∧
          (p.2, nm) ∈ blocks.zip names := by
  intro i blocks
  induction blocks generalizing i with
  | nil => intro names _ p hp; simp [codeEntriesOf] at hp
  | cons b bs ih =>
    intro names hlen p hp
    cases names with
    | nil => simp at hlen
    | cons nm ns =>
      simp only [codeEntriesOf, List.zip_cons_cons, List.mem_cons] at hp
      rcases hp with hp | hp
      · subst hp
        exact ⟨nm, rfl, by simp⟩
      · obtain ⟨nm', hshape, hmem⟩ := ih (i + 1) ns (by simpa using hlen) p hp
        refine ⟨nm', hshape, ?_⟩
        simp only [List.zip_cons_cons, List.mem_cons]
        right
        exact hmem

lemma decrypt1_generated (hashF : Bytes → Str) (hlN : Nat) (outdir : Str)
    (store0 : Store) (hl v : Int) (blocks : List Bytes) (names : List Str)
    (hlen : names.length = blocks.length) (hnodup : names.Nodup) :
    ∃ acc, decrypt1 (codeEntriesOf hashF hlN (pyStrip outdir) 0 blocks names)
        outdir ((storeOf outdir blocks names).reverse ++ store0) hashF hl v =
        some acc ∧ acc.output = blocks.flatten := by
  unfold decrypt1
  rw [(codeEntries_keys_sorted hashF hlN (pyStrip outdir) 0 blocks
    names).insertionSort_eq]
  have hpathnodup : (((storeOf outdir blocks names).reverse).map Prod.fst).Nodup := by
    rw [List.map_reverse, storeOf_map_fst outdir blocks names hlen]
    exact List.nodup_reverse.mpr (hnodup.map (pathJoin_injective outdir))
  have hf : List.Forall₂ (fun (e : Int × List Str) (blk : Bytes) =>
      lookupCode (codeEntriesOf hashF hlN (pyStrip outdir) 0 blocks names) e.1 =
        some e.2 ∧
      ∃ nm hsh, e.2 = [natDigits blk.length, pyStrip outdir, nm, hsh] ∧
        readStore ((storeOf outdir blocks names).reverse ++ store0)
          (pathJoin outdir nm) = some blk)
      (codeEntriesOf hashF hlN (pyStrip outdir) 0 blocks names) blocks := by
    rw [List.forall₂_iff_zip]
    refine ⟨codeEntries_length hashF hlN (pyStrip outdir) 0 blocks names hlen, ?_⟩
    intro e blk hmem
    have hemem : e ∈ codeEntriesOf hashF hlN (pyStrip outdir) 0 blocks names :=
      (List.mem_zip hmem).1
    refine ⟨lookupCode_self_of_nodup _
      (codeEntries_keys_nodup hashF hlN (pyStrip outdir) 0 blocks names) e hemem, ?_⟩
    obtain ⟨nm, hshape, hzip⟩ :=
      codeEntries_zip_shape hashF hlN (pyStrip outdir) 0 blocks names hlen (e, blk)
        hmem
    refine ⟨nm, (hashF blk).take hlN, hshape, ?_⟩
    apply readStore_of_mem _ _ _ _ hpathnodup
    rw [List.mem_reverse]
    exact storeOf_mem_zip outdir blocks names hlen (blk, nm) hzip
  obtain ⟨acc', hfold, hout⟩ := decrypt_fold_entries
    (codeEntriesOf hashF hlN (pyStrip outdir) 0 blocks names) outdir
    (pyStrip outdir) ((storeOf outdir blocks names).reverse ++ store0) hashF hl v
    (codeEntriesOf hashF hlN (pyStrip outdir) 0 blocks names) blocks
    { output := [], audit := [], expected := 0, actual := 0 } hf
  rw [hfold]
  exact ⟨_, rfl, by simpa using hout⟩

/-! ## Header lookups after the round trip -/

def mangledHeader (version inputdir infile : Str) (hlN : Nat) (cs : List Str) :
    List (Str × Str) :=
  (headerPairs version inputdir infile hlN cs).map
    (fun p => (p.1, headerValueMangle p.2))

lemma headerPairs_keys_nodup (version inputdir infile : Str) (hlN : Nat)
    (cs : List Str) :
    ((headerPairs version inputdir infile hlN cs).map Prod.fst).Nodup := by
  have hexp : (headerPairs version inputdir infile hlN cs).map Prod.fst =
      ["version".data, "inputdir".data, "infile".data, "hashlength".data,
        "md5".data, "sha1".data, "sha224".data, "sha256".data, "sha384".data,
        "sha512".data] := rfl
  rw [hexp]
  decide

lemma headerPairs_keys_ok (version inputdir infile : Str) (hlN : Nat)
    (cs : List Str) :
    ∀ p ∈ headerPairs version inputdir infile hlN cs,
      (∀ c ∈ p.1, isWS c = false ∧ c ≠ '>') ∧ p.1.head? ≠ some '#' := by
  intro p hp
  simp only [headerPairs, List.mem_cons, List.not_mem_nil, or_false] at hp
  rcases hp with h | h | h | h | h | h | h | h | h | h <;> subst h <;>
    refine ⟨?_, ?_⟩ <;> dsimp only <;> decide

lemma lookupStr_cons_eq (k v : Str) (m : List (Str × Str)) :
    lookupStr ((k, v) :: m) k = some v := by
  show (if k = k then some v else lookupStr m k) = some v
  rw [if_pos rfl]

lemma lookupStr_cons_ne (k v key : Str) (m : List (Str × Str)) (h : k ≠ key) :
    lookupStr ((k, v) :: m) key = lookupStr m key := by
  show (if k = key then some v else lookupStr m key) = lookupStr m key
  rw [if_neg h]

lemma headerValueMangle_digits (n : Nat) :
    headerValueMangle (natDigits n) = natDigits n := by
  unfold headerValueMangle
  rw [rstripWS_eq_self_of_all _ (fun c hc => (digits_props n c hc).1)]
  rw [splitDelim_no_gt _ (not_gt_mem (fun c hc => (digits_props n c hc).2.1))]
  simp only [List.headD_cons]
  exact pyStrip_natDigits n

lemma mangled_lookup_version (version inputdir infile : Str) (hlN : Nat)
    (cs : List Str) :
    lookupStr (mangledHeader version inputdir infile hlN cs) "version".data =
      some (headerValueMangle version) := by
  have hexp : mangledHeader version inputdir infile hlN cs =
      ("version".data, headerValueMangle version) ::
        ("inputdir".data, headerValueMangle inputdir) ::
        ("infile".data, headerValueMangle infile) ::
        ("hashlength".data, headerValueMangle (natDigits hlN)) ::
        ("md5".data, headerValueMangle (cs.getD 0 [])) ::
        ("sha1".data, headerValueMangle (cs.getD 1 [])) ::
        ("sha224".data, headerValueMangle (cs.getD 2 [])) ::
        ("sha256".data, headerValueMangle (cs.getD 3 [])) ::
        ("sha384".data, headerValueMangle (cs.getD 4 [])) ::
        [("sha512".data, headerValueMangle (cs.getD 5 []))] := rfl
  rw [hexp, lookupStr_cons_eq]

lemma mangled_lookup_hashlength (version inputdir infile : Str) (hlN : Nat)
    (cs : List Str) :
    lookupStr (mangledHeader version inputdir infile hlN cs) "hashlength".data =
      some (natDigits hlN) := by
  have hexp : mangledHeader version inputdir infile hlN cs =
      ("version".data, headerValueMangle version) ::
        ("inputdir".data, headerValueMangle inputdir) ::
        ("infile".data, headerValueMangle infile) ::
        ("hashlength".data, headerValueMangle (natDigits hlN)) ::
        ("md5".data, headerValueMangle (cs.getD 0 [])) ::
        ("sha1".data, headerValueMangle (cs.getD 1 [])) ::
        ("sha224".data, headerValueMangle (cs.getD 2 [])) ::
        ("sha256".data, headerValueMangle (cs.getD 3 [])) ::
        ("sha384".data, headerValueMangle (cs.getD 4 [])) ::
        [("sha512".data, headerValueMangle (cs.getD 5 []))] := rfl
  rw [hexp, lookupStr_cons_ne _ _ _ _ (by decide),
    lookupStr_cons_ne _ _ _ _ (by decide), lookupStr_cons_ne _ _ _ _ (by decide),
    lookupStr_cons_eq, headerValueMangle_digits]

lemma mangled_lookup_digest (version inputdir infile : Str) (hlN : Nat)
    (cs : List Str) :
    lookupStr (mangledHeader version inputdir infile hlN cs) "md5".data =
        some (headerValueMangle (cs.getD 0 [])) ∧
      lookupStr (mangledHeader version inputdir infile hlN cs) "sha1".data =
        some (headerValueMangle (cs.getD 1 [])) ∧
      lookupStr (mangledHeader version inputdir infile hlN cs) "sha224".data =
        some (headerValueMangle (cs.getD 2 [])) ∧
      lookupStr (mangledHeader version inputdir infile hlN cs) "sha256".data =
        some (headerValueMangle (cs.getD 3 [])) ∧
      lookupStr (mangledHeader version inputdir infile hlN cs) "sha384".data =
        some (headerValueMangle (cs.getD 4 [])) ∧
      lookupStr (mangledHeader version inputdir infile hlN cs) "sha512".data =
        some (headerValueMangle (cs.getD 5 [])) := by
  have hexp : mangledHeader version inputdir infile hlN cs =
      ("version".data, headerValueMangle version) ::
        ("inputdir".data, headerValueMangle inputdir) ::
        ("infile".data, headerValueMangle infile) ::
        ("hashlength".data, headerValueMangle (natDigits hlN)) ::
        ("md5".data, headerValueMangle (cs.getD 0 [])) ::
        ("sha1".data, headerValueMangle (cs.getD 1 [])) ::
        ("sha224".data, headerValueMangle (cs.getD 2 [])) ::
        ("sha256".data, headerValueMangle (cs.getD 3 [])) ::
        ("sha384".data, headerValueMangle (cs.getD 4 [])) ::
        [("sha512".data, headerValueMangle (cs.getD 5 []))] := rfl
  rw [hexp]
  refine ⟨?_, ?_, ?_, ?_, ?_, ?_⟩ <;>
    (repeat first
      | rw [lookupStr_cons_ne _ _ _ _ (by decide)]
      | rw [lookupStr_cons_eq])

lemma evenSlicer_ne_nil (blockSize : Nat) (file : Bytes) :
    evenSlicer blockSize file ≠ [] := by
  rw [evenSlicer_eq]
  split <;> simp

lemma unevenSlicer_ne_nil (draw : Nat → Nat) (minB maxB idx : Nat) (file : Bytes) :
    unevenSlicer draw minB maxB idx file ≠ [] := by
  rw [unevenSlicer_eq]
  split <;> simp

lemma slicerBlocks_flatten (slicer : Str) (blockSize : Nat) (draw : Nat → Nat)
    (file : Bytes) (hs : slicer = "even".data ∨ slicer = "uneven".data)
    (hB : 0 < blockSize) :
    (slicerBlocks slicer blockSize draw file).flatten = file := by
  rcases hs with hs | hs <;> subst hs
  · unfold slicerBlocks
    rw [if_pos rfl]
    exact evenSlicer_flatten blockSize hB file
  · unfold slicerBlocks
    rw [if_neg (by decide), if_pos rfl]
    exact unevenSlicer_flatten draw blockSize (blockSize * 2) hB 0 file

lemma slicerBlocks_ne_nil (slicer : Str) (blockSize : Nat) (draw : Nat → Nat)
    (file : Bytes) (hs : slicer = "even".data ∨ slicer = "uneven".data) :
    slicerBlocks slicer blockSize draw file ≠ [] := by
  rcases hs with hs | hs <;> subst hs
  · unfold slicerBlocks
    rw [if_pos rfl]
    exact evenSlicer_ne_nil blockSize file
  · unfold slicerBlocks
    rw [if_neg (by decide), if_pos rfl]
    exact unevenSlicer_ne_nil draw blockSize (blockSize * 2) 0 file

lemma headerValueMangle_version :
    headerValueMangle "JigsawFileONE".data = "JigsawFileONE".data := by decide

/-- Core round-trip result: decoding the key file and fragment files produced
by encrypting a file reproduces the file's bytes exactly. -/
lemma roundtrip_model (slicer : Str) (blockSize hashlength : Nat)
    (hashF : Bytes → Str) (whole : Bytes → List Str) (cand : Nat → Str)
    (draw : Nat → Nat) (fuel : Nat) (inputdir infile outputdir : Str)
    (listing : List Str) (store0 : Store) (file : Bytes) (res : EncResult)
    (verbose : Int)
    (hslicer : slicer = "even".data ∨ slicer = "uneven".data)
    (hB : 0 < blockSize)
    (hout : '>' ∉ outputdir) (houtn : '\n' ∉ outputdir)
    (hind : '\n' ∉ inputdir) (hinf : '\n' ∉ infile)
    (hwh : ∀ b l, l ∈ whole b → '\n' ∉ l)
    (hcand : ∀ i c, c ∈ cand i → c ∈ mapping)
    (hhash : ∀ b c, c ∈ hashF b → isWS c = false ∧ c ≠ '>')
    (henc : encryptModel "JigsawFileONE".data slicer blockSize hashlength hashF
      whole cand draw fuel inputdir infile outputdir listing store0 file =
      some res) :
    (decryptModel whole hashF res.lines res.store outputdir verbose).map
      DecResult.output = some file := by
  unfold encryptModel at henc
  rw [if_pos rfl] at henc
  cases he : encrypt1Blocks hashF hashlength outputdir cand fuel
      (slicerBlocks slicer blockSize draw file) 0
      { idx := 0, fileList := seedFileList listing, store := store0 } with
  | none => rw [he] at henc; simp at henc
  | some w =>
    obtain ⟨body, st⟩ := w
    rw [he] at henc
    simp only [Option.some.injEq] at henc
    obtain ⟨names, hlen, hnodup, hprops, hfl, hstore, hlines⟩ :=
      encrypt1Blocks_spec hashF hashlength outputdir cand fuel _ 0 _ body st he
    subst hlines
    have hnmp : ∀ nm ∈ names, ∀ c ∈ nm, isWS c = false ∧ c ≠ '>' := by
      intro nm hm c hc
      obtain ⟨_, j, hj⟩ := hprops nm hm
      subst hj
      have h := name_props cand hcand j c hc
      exact ⟨h.1, h.2.1⟩
    rw [← henc]
    dsimp only
    rw [hstore]
    dsimp only
    unfold decryptModel
    rw [readKeyHead_append _ _ (bodyLines_headerLines hashF hashlength outputdir
      (fun b c hc => (hhash b c hc).1) 0 (slicerBlocks slicer blockSize draw file)
      names)]
    rw [readKeyHead_write _
      (headerPairs_keys_nodup "JigsawFileONE".data inputdir infile hashlength
        (whole file))
      (headerPairs_keys_ok "JigsawFileONE".data inputdir infile hashlength
        (whole file))]
    dsimp only
    rw [show ((headerPairs "JigsawFileONE".data inputdir infile hashlength
        (whole file)).map (fun p => (p.1, headerValueMangle p.2))) =
      mangledHeader "JigsawFileONE".data inputdir infile hashlength (whole file)
      from rfl]
    rw [mangled_lookup_hashlength]
    dsimp only
    rw [pyInt_natDigits]
    dsimp only
    rw [readKeyCode_append _ _ (header_codeLines_nil _
      (headerPairs_keys_nodup "JigsawFileONE".data inputdir infile hashlength
        (whole file))
      (headerPairs_keys_ok "JigsawFileONE".data inputdir infile hashlength
        (whole file)))]
    rw [readKeyCode_generated hashF hashlength outputdir hout hhash
      (slicerBlocks slicer blockSize draw file) names
      (slicerBlocks_ne_nil slicer blockSize draw file hslicer) hlen hnmp]
    dsimp only
    rw [mangled_lookup_version, headerValueMangle_version]
    rw [if_pos rfl]
    obtain ⟨acc, hdec, hacc⟩ := decrypt1_generated hashF hashlength outputdir
      store0 (hashlength : Int) verbose (slicerBlocks slicer blockSize draw file)
      names hlen hnodup
    rw [hdec]
    dsimp only
    obtain ⟨h5, h1, h224, h256, h384, h512⟩ := mangled_lookup_digest
      "JigsawFileONE".data inputdir infile hashlength (whole file)
    unfold compareHashLines
    rw [h5, h1, h224, h256, h384, h512]
    dsimp only
    simp only [Option.map_some']
    rw [hacc, slicerBlocks_flatten slicer blockSize draw file hslicer hB]

/-- C1: decoding the key file and fragment files produced by encrypting a file
reproduces the file's bytes exactly, for both slicing modes.  Hypotheses are
the valid-configuration assumptions: a slicer of 'even' or 'uneven', a
positive block size, an output directory free of the key-file delimiter and of
newlines, newline-free header metadata, candidate names drawn from
`_generateFilename`'s alphabet, and hash digests made of ordinary
(non-whitespace, non-delimiter) characters. -/
theorem claim_C1 (slicer : Str) (blockSize hashlength : Nat)
    (hashF : Bytes → Str) (whole : Bytes → List Str) (cand : Nat → Str)
    (draw : Nat → Nat) (fuel : Nat) (inputdir infile outputdir : Str)
    (listing : List Str) (store0 : Store) (file : Bytes) (res : EncResult)
    (verbose : Int)
    (hslicer : slicer = "even".data ∨ slicer = "uneven".data)
    (hB : 0 < blockSize)
    (hout : '>' ∉ outputdir) (houtn : '\n' ∉ outputdir)
    (hind : '\n' ∉ inputdir) (hinf : '\n' ∉ infile)
    (hwh : ∀ b l, l ∈ whole b → '\n' ∉ l)
    (hcand : ∀ i c, c ∈ cand i → c ∈ mapping)
    (hhash : ∀ b c, c ∈ hashF b → isWS c = false ∧ c ≠ '>')
    (henc : encryptModel "JigsawFileONE".data slicer blockSize hashlength hashF
      whole cand draw fuel inputdir infile outputdir listing store0 file =
      some res) :
    (decryptModel whole hashF res.lines res.store outputdir verbose).map
      DecResult.output = some file :=
  roundtrip_model slicer blockSize hashlength hashF whole cand draw fuel inputdir
    infile outputdir listing store0 file res verbose hslicer hB hout houtn hind
    hinf hwh hcand hhash henc

lemma candW_mem : ∀ i c, c ∈ candW i → c ∈ mapping := by
  intro i c hc
  simp only [candW, List.mem_singleton] at hc
  subst hc
  unfold List.getD
  cases hg : mapping.get? i with
  | none => simp [hg]; decide
  | some c' =>
    have := List.get?_mem hg
    simp [hg, this]

lemma hashW_props : ∀ b c, c ∈ hashW b → isWS c = false ∧ c ≠ '>' := by
  intro b c hc
  simp only [hashW, List.mem_singleton] at hc
  subst hc
  decide

def RES1 : EncResult :=
  { lines := ["#version>>JigsawFileONE".data, "#inputdir>>i".data, "#infile>>f".data,
      "#hashlength>>1".data, "#md5>>".data, "#sha1>>".data, "#sha224>>".data,
      "#sha256>>".data, "#sha384>>".data, "#sha512>>".data,
      "AA>>0>>2>>d>>1.jig>>h".data, "AA>>1>>0>>d>>2.jig>>h".data]
    store := [("d/2.jig".data, []), ("d/1.jig".data, [5, 6])]
    fileList := ["1.jig".data, "2.jig".data]
    count := 2 }

theorem claim_C1_witness :
    encryptModel "JigsawFileONE".data "even".data 2 1 hashW wholeW candW
        (fun _ => 0) 2 "i".data "f".data "d".data [] [] [5, 6] = some RES1 ∧
      (decryptModel wholeW hashW RES1.lines RES1.store "d".data 1).map
        DecResult.output = some [5, 6] :=
  ⟨by decide, claim_C1 "even".data 2 1 hashW wholeW candW (fun _ => 0) 2 "i".data
    "f".data "d".data [] [] [5, 6] RES1 1 (Or.inl rfl) (by decide) (by decide)
    (by decide) (by decide) (by decide)
    (fun b l hl => absurd hl (List.not_mem_nil l)) candW_mem hashW_props
    (by decide)⟩

lemma slicerBlocks_empty (slicer : Str) (blockSize : Nat) (draw : Nat → Nat)
    (hs : slicer = "even".data ∨ slicer = "uneven".data) :
    slicerBlocks slicer blockSize draw [] = [[]] := by
  rcases hs with hs | hs <;> subst hs
  · unfold slicerBlocks
    rw [if_pos rfl, evenSlicer_eq]
    simp
  · unfold slicerBlocks
    rw [if_neg (by decide), if_pos rfl, unevenSlicer_eq]
    simp

/-- C3 (amended): encrypting a zero-byte source file produces exactly one
fragment file, of zero bytes, and a key file with exactly one body line (the
slicer yields the single empty read of its loop); decoding that key file
still produces a zero-byte output file. -/
theorem claim_C3 (slicer : Str) (blockSize hashlength : Nat)
    (hashF : Bytes → Str) (whole : Bytes → List Str) (cand : Nat → Str)
    (draw : Nat → Nat) (fuel : Nat) (inputdir infile outputdir : Str)
    (listing : List Str) (store0 : Store) (res : EncResult) (verbose : Int)
    (hslicer : slicer = "even".data ∨ slicer = "uneven".data)
    (hB : 0 < blockSize)
    (hout : '>' ∉ outputdir) (houtn : '\n' ∉ outputdir)
    (hind : '\n' ∉ inputdir) (hinf : '\n' ∉ infile)
    (hwh : ∀ b l, l ∈ whole b → '\n' ∉ l)
    (hcand : ∀ i c, c ∈ cand i → c ∈ mapping)
    (hhash : ∀ b c, c ∈ hashF b → isWS c = false ∧ c ≠ '>')
    (henc : encryptModel "JigsawFileONE".data slicer blockSize hashlength hashF
      whole cand draw fuel inputdir infile outputdir listing store0 [] =
      some res) :
    res.count = 1 ∧
      (∃ nm, res.store = (pathJoin outputdir nm, ([] : Bytes)) :: store0 ∧
        res.lines = writeKeyHeaderLines (addHeaderAll (headerPairs
            "JigsawFileONE".data inputdir infile hashlength (whole []))) ++
          [bodyLine outputdir 0 [] nm ((hashF []).take hashlength)]) ∧
      (decryptModel whole hashF res.lines res.store outputdir verbose).map
        DecResult.output = some [] := by
  refine ⟨?_, ?_, roundtrip_model slicer blockSize hashlength hashF whole cand
    draw fuel inputdir infile outputdir listing store0 [] res verbose hslicer hB
    hout houtn hind hinf hwh hcand hhash henc⟩
  · unfold encryptModel at henc
    rw [if_pos rfl] at henc
    cases he : encrypt1Blocks hashF hashlength outputdir cand fuel
        (slicerBlocks slicer blockSize draw []) 0
        { idx := 0, fileList := seedFileList listing, store := store0 } with
    | none => rw [he] at henc; simp at henc
    | some w =>
      rw [he] at henc
      obtain ⟨body, st⟩ := w
      simp only [Option.some.injEq] at henc
      rw [← henc]
      dsimp only
      rw [slicerBlocks_empty slicer blockSize draw hslicer]
      rfl
  · unfold encryptModel at henc
    rw [if_pos rfl] at henc
    rw [slicerBlocks_empty slicer blockSize draw hslicer] at henc
    cases he : encrypt1Blocks hashF hashlength outputdir cand fuel [[]] 0
        { idx := 0, fileList := seedFileList listing, store := store0 } with
    | none => rw [he] at henc; simp at henc
    | some w =>
      rw [he] at henc
      obtain ⟨body, st⟩ := w
      simp only [Option.some.injEq] at henc
      obtain ⟨names, hlen, _, _, _, hstore, hlines⟩ :=
        encrypt1Blocks_spec hashF hashlength outputdir cand fuel _ 0 _ body st he
      cases names with
      | nil => simp at hlen
      | cons nm ns =>
        cases ns with
        | nil =>
          refine ⟨nm, ?_, ?_⟩
          · rw [← henc]
            dsimp only
            rw [hstore]
            simp [storeOf]
          · rw [← henc]
            dsimp only
            rw [hlines]
            rfl
        | cons nm2 ns2 => simp at hlen

/-- C3 counterexample: encrypting a zero-byte file under the default-style
configuration yields one fragment and a key file with eleven lines (ten header
lines plus one body line), not zero fragments and zero body lines. -/
theorem claim_C3_counterexample :
    (encryptModel "JigsawFileONE".data "even".data 4096 1 hashW wholeW candW
        (fun _ => 0) 2 "i".data "f".data "d".data [] [] []).map
      (fun r => (r.count, r.lines.length)) = some (1, 11) := by decide

def RES3 : EncResult :=
  { lines := ["#version>>JigsawFileONE".data, "#inputdir>>i".data, "#infile>>f".data,
      "#hashlength>>1".data, "#md5>>".data, "#sha1>>".data, "#sha224>>".data,
      "#sha256>>".data, "#sha384>>".data, "#sha512>>".data,
      "AA>>0>>0>>d>>1.jig>>h".data]
    store := [("d/1.jig".data, [])]
    fileList := ["1.jig".data]
    count := 1 }

theorem claim_C3_witness :
    encryptModel "JigsawFileONE".data "even".data 1 1 hashW wholeW candW
        (fun _ => 0) 2 "i".data "f".data "d".data [] [] [] = some RES3 ∧
      (RES3.count = 1 ∧
        (∃ nm, RES3.store = (pathJoin "d".data nm, ([] : Bytes)) :: [] ∧
          RES3.lines = writeKeyHeaderLines (addHeaderAll (headerPairs
              "JigsawFileONE".data "i".data "f".data 1 (wholeW []))) ++
            [bodyLine "d".data 0 [] nm ((hashW []).take 1)]) ∧
        (decryptModel wholeW hashW RES3.lines RES3.store "d".data 1).map
          DecResult.output = some []) :=
  ⟨by decide, claim_C3 "even".data 1 1 hashW wholeW candW (fun _ => 0) 2 "i".data
    "f".data "d".data [] [] RES3 1 (Or.inl rfl) (by decide) (by decide)
    (by decide) (by decide) (by decide)
    (fun b l hl => absurd hl (List.not_mem_nil l)) candW_mem hashW_props
    (by decide)⟩

/-! ## Claim C6: the sequence-number sort, not the body-line order, is
authoritative for the reconstruction order -/

/-- Direct positional parse of one body line's parsed fields (lines 536-540
read off `int(x[1])` as the sequence key and keep `x[2:]` as the entry). -/
def parseCodeLine (x : List Str) : Option (Int × List Str) :=
  match x.get? 1 with
  | none => none
  | some s =>
    match pyInt s with
    | none => none
    | some k => some (k, x.drop 2)

/-- Positional parse of all body lines, in file order, with no dictionary. -/
def parseCodeLines : List (List Str) → Option (List (Int × List Str))
  | [] => some []
  | x :: xs =>
    match parseCodeLine x with
    | none => none
    | some e => (parseCodeLines xs).map (fun es => e :: es)

/-- The manifest sorted ascending by sequence number (line 666's
`blocks.sort()` on the integer keys, carried over to the entries). -/
def sortBySeq (es : List (Int × List Str)) : List (Int × List Str) :=
  List.insertionSort (fun a b => a.1 ≤ b.1) es

/-- Read the fragment file named in one manifest entry (line 671 opens
`os.sep.join([self.decryptdir, keycode[2]])`). -/
def readFragOf (inputdir : Str) (store : Store) (e : Int × List Str) :
    Option Bytes :=
  match e.2.get? 2 with
  | none => none
  | some fn => readStore store (pathJoin inputdir fn)

/-- Read every fragment of a manifest, in the given order. -/
def readFragsOf (inputdir : Str) (store : Store) :
    List (Int × List Str) → Option (List Bytes)
  | [] => some []
  | e :: es =>
    match readFragOf inputdir store e with
    | none => none
    | some b => (readFragsOf inputdir store es).map (fun bs => b :: bs)

/-- The specification's reconstruction order: the fragment contents
concatenated in ascending sequence-number order. -/
def specSortedConcat (inputdir : Str) (store : Store)
    (es : List (Int × List Str)) : Option Bytes :=
  (readFragsOf inputdir store (sortBySeq es)).map List.flatten

lemma decryptStep_success_inv (m : List (Int × List Str)) (indir : Str)
    (store : Store) (hashF : Bytes → Str) (hl v : Int) (acc acc' : DecRun)
    (b : Int) (h : decryptStep m indir store hashF hl v acc b = some acc') :
    ∃ entry fn blk bsStr e3 bsInt,
      lookupCode m b = some entry ∧ entry.get? 2 = some fn ∧
      readStore store (pathJoin indir fn) = some blk ∧
      entry.get? 0 = some bsStr ∧ entry.get? 3 = some e3 ∧
      pyInt bsStr = some bsInt ∧
      acc' = { output := acc.output ++ blk
               audit := decryptVerbosity v acc.audit
                 (joinDelim [intStr b, pathJoin indir fn, bsStr,
                   natDigits blk.length, e3, pySliceTo (hashF blk) hl])
               expected := acc.expected + bsInt
               actual := acc.actual + blk.length } := by
  unfold decryptStep at h
  split at h
  next => cases h
  next entry h1 =>
    split at h
    next => cases h
    next fn h2 =>
      split at h
      next => cases h
      next blk h3 =>
        split at h
        next => cases h
        next bsStr h4 =>
          split at h
          next => cases h
          next e3 h5 =>
            split at h
            next => cases h
            next bsInt h6 =>
              injection h with h
              exact ⟨entry, fn, blk, bsStr, e3, bsInt, h1, h2, h3, h4, h5,
                h6, h.symm⟩

lemma updCode_fresh (m : List (Int × List Str)) (k : Int) (v : List Str)
    (h : k ∉ m.map Prod.fst) : updCode m k v = m ++ [(k, v)] := by
  unfold updCode
  rw [if_neg h]

lemma parseCodeLines_eq_map :
    ∀ (xs : List (List Str)) (es : List (Int × List Str)),
      parseCodeLines xs = some es →
      es = xs.map (fun x => (parseCodeLine x).getD (0, [])) := by
  intro xs
  induction xs with
  | nil =>
    intro es h
    injection h with h
    rw [← h]
    rfl
  | cons x xs ih =>
    intro es h
    unfold parseCodeLines at h
    cases h1 : parseCodeLine x with
    | none => rw [h1] at h; cases h
    | some e =>
      rw [h1] at h
      cases h2 : parseCodeLines xs with
      | none => rw [h2] at h; simp at h
      | some es' =>
        rw [h2] at h
        simp only [Option.map_some'] at h
        injection h with h
        rw [← h]
        simp only [List.map_cons]
        rw [← ih es' h2, h1]
        rfl

lemma parse_of_readCode :
    ∀ (xs : List (List Str)) (m0 m : List (Int × List Str)),
      xs.foldlM readCodeLine m0 = some m →
      ∃ es, parseCodeLines xs = some es := by
  intro xs
  induction xs with
  | nil => intro m0 m _; exact ⟨[], rfl⟩
  | cons x xs ih =>
    intro m0 m h
    simp only [List.foldlM_cons] at h
    cases h1 : readCodeLine m0 x with
    | none => rw [h1] at h; simp at h
    | some m1 =>
      rw [h1] at h
      simp only [Option.bind_eq_bind, Option.some_bind] at h
      obtain ⟨es, hes⟩ := ih m1 m h
      unfold readCodeLine at h1
      unfold parseCodeLines
      split at h1
      next => cases h1
      next s hg =>
        split at h1
        next => cases h1
        next k hpi =>
          have hp : parseCodeLine x = some (k, x.drop 2) := by
            simp only [parseCodeLine, hg, hpi]
          rw [hp, hes]
          exact ⟨(k, x.drop 2) :: es, rfl⟩

lemma fold_readCode_append :
    ∀ (xs : List (List Str)) (es m0 : List (Int × List Str)),
      parseCodeLines xs = some es → ((m0 ++ es).map Prod.fst).Nodup →
      xs.foldlM readCodeLine m0 = some (m0 ++ es) := by
  intro xs
  induction xs with
  | nil =>
    intro es m0 hp _
    injection hp with hp
    rw [← hp]
    simp
  | cons x xs ih =>
    intro es m0 hp hnd
    unfold parseCodeLines at hp
    split at hp
    next => cases hp
    next e h1 =>
      cases h2 : parseCodeLines xs with
      | none => rw [h2] at hp; simp at hp
      | some es' =>
        rw [h2] at hp
        simp only [Option.map_some'] at hp
        injection hp with hp
        subst hp
        have he1 : e.1 ∉ m0.map Prod.fst := by
          have hnd' := hnd
          rw [List.map_append, List.nodup_append] at hnd'
          intro hk
          exact hnd'.2.2 hk (by
            rw [List.map_cons]
            exact List.mem_cons_self _ _)
        have hx : readCodeLine m0 x = some (m0 ++ [e]) := by
          unfold readCodeLine
          unfold parseCodeLine at h1
          split at h1
          next => cases h1
          next s hg =>
            split at h1
            next => cases h1
            next k hpi =>
              injection h1 with h1
              rw [← h1]
              rw [← h1] at he1
              rw [updCode_fresh m0 k (x.drop 2) he1]
        simp only [List.foldlM_cons]
        rw [hx]
        simp only [Option.bind_eq_bind, Option.some_bind]
        have hih := ih es' (m0 ++ [e]) h2
          (by rw [List.append_assoc, List.singleton_append]; exact hnd)
        rw [hih, List.append_assoc, List.singleton_append]

lemma readKeyCode_inv (lines : List Str) (m : List (Int × List Str))
    (h : readKeyCode lines = some m) :
    ((codeLinesOf lines).map parseFields).foldlM readCodeLine [] = some m := by
  unfold readKeyCode at h
  by_cases hAA : AA ∈ ((codeLinesOf lines).map parseFields).map
      (fun x => x.headD [])
  · rwa [if_pos hAA] at h
  · rw [if_neg hAA] at h
    cases h

lemma lookupCode_eq_of_perm {m₁ m₂ : List (Int × List Str)}
    (hperm : List.Perm m₁ m₂) :
    (m₁.map Prod.fst).Nodup → ∀ k, lookupCode m₁ k = lookupCode m₂ k := by
  induction hperm with
  | nil => intro _ k; rfl
  | cons p hp ih =>
    intro hnd k
    simp only [List.map_cons, List.nodup_cons] at hnd
    simp only [lookupCode]
    by_cases hpk : p.1 = k
    · simp [hpk]
    · simp only [if_neg hpk]
      exact ih hnd.2 k
  | swap x y l =>
    intro hnd k
    simp only [List.map_cons, List.nodup_cons, List.mem_cons] at hnd
    have hyx : y.1 ≠ x.1 := fun hh => hnd.1 (Or.inl hh)
    simp only [lookupCode]
    by_cases hyk : y.1 = k
    · have hxk : ¬ x.1 = k := by
        rw [← hyk]
        exact fun hh => hyx hh.symm
      simp [hyk, hxk]
    · by_cases hxk : x.1 = k
      · simp [hyk, hxk]
      · simp [hyk, hxk]
  | trans h₁ h₂ ih₁ ih₂ =>
    intro hnd k
    rw [ih₁ hnd k]
    exact ih₂ (((h₁.map Prod.fst).nodup_iff).mp hnd) k

lemma sortBySeq_map_fst (es : List (Int × List Str)) :
    (sortBySeq es).map Prod.fst =
      List.insertionSort (· ≤ ·) (es.map Prod.fst) := by
  haveI hT : IsTotal (Int × List Str) (fun a b => a.1 ≤ b.1) :=
    ⟨fun a b => Int.le_total a.1 b.1⟩
  haveI hR : IsTrans (Int × List Str) (fun a b => a.1 ≤ b.1) :=
    ⟨fun a b c hab hbc => le_trans hab hbc⟩
  have hperm : List.Perm ((sortBySeq es).map Prod.fst)
      (List.insertionSort (· ≤ ·) (es.map Prod.fst)) :=
    ((List.perm_insertionSort _ es).map Prod.fst).trans
      (List.perm_insertionSort _ _).symm
  have hs₁ : ((sortBySeq es).map Prod.fst).Sorted (· ≤ ·) := by
    have hs := List.sorted_insertionSort (fun a b : Int × List Str => a.1 ≤ b.1) es
    exact List.pairwise_map.mpr hs
  have hs₂ : (List.insertionSort (· ≤ ·) (es.map Prod.fst)).Sorted (· ≤ ·) :=
    List.sorted_insertionSort _ _
  exact List.eq_of_perm_of_sorted hperm hs₁ hs₂

lemma foldlM_step_congr {α β : Type} (f g : β → α → Option β)
    (h : ∀ acc a, f acc a = g acc a) :
    ∀ (l : List α) (acc : β), l.foldlM f acc = l.foldlM g acc := by
  intro l
  induction l with
  | nil => intro acc; rfl
  | cons a l ih =>
    intro acc
    simp only [List.foldlM_cons]
    rw [h acc a]
    cases g acc a with
    | none => rfl
    | some b =>
      simp only [Option.bind_eq_bind, Option.some_bind]
      exact ih b

lemma decryptStep_lookup_congr (m₁ m₂ : List (Int × List Str)) (indir : Str)
    (store : Store) (hashF : Bytes → Str) (hl v : Int)
    (h : ∀ k, lookupCode m₁ k = lookupCode m₂ k) (acc : DecRun) (b : Int) :
    decryptStep m₁ indir store hashF hl v acc b =
      decryptStep m₂ indir store hashF hl v acc b := by
  unfold decryptStep
  rw [h b]

lemma decrypt1_keys_congr (m₁ m₂ : List (Int × List Str)) (indir : Str)
    (store : Store) (hashF : Bytes → Str) (hl v : Int)
    (hkeys : List.insertionSort (· ≤ ·) (m₁.map Prod.fst) =
      List.insertionSort (· ≤ ·) (m₂.map Prod.fst))
    (hlook : ∀ k, lookupCode m₁ k = lookupCode m₂ k) :
    decrypt1 m₁ indir store hashF hl v = decrypt1 m₂ indir store hashF hl v := by
  unfold decrypt1
  rw [hkeys]
  rw [foldlM_step_congr _ _
    (fun acc b => decryptStep_lookup_congr m₁ m₂ indir store hashF hl v hlook acc b)]

lemma fold_success_reads (m : List (Int × List Str)) (indir : Str)
    (store : Store) (hashF : Bytes → Str) (hl v : Int) :
    ∀ (ps : List (Int × List Str)) (acc acc' : DecRun),
      (∀ p ∈ ps, lookupCode m p.1 = some p.2) →
      (ps.map Prod.fst).foldlM (decryptStep m indir store hashF hl v) acc =
        some acc' →
      ∃ bs, readFragsOf indir store ps = some bs ∧
        acc'.output = acc.output ++ bs.flatten := by
  intro ps
  induction ps with
  | nil =>
    intro acc acc' _ hfold
    simp only [List.map_nil, List.foldlM_nil] at hfold
    injection hfold with h
    exact ⟨[], rfl, by rw [← h]; simp⟩
  | cons p ps ih =>
    intro acc acc' hlk hfold
    simp only [List.map_cons, List.foldlM_cons] at hfold
    cases hstep : decryptStep m indir store hashF hl v acc p.1 with
    | none => rw [hstep] at hfold; simp at hfold
    | some acc₁ =>
      rw [hstep] at hfold
      simp only [Option.bind_eq_bind, Option.some_bind] at hfold
      obtain ⟨entry, fn, blk, bsStr, e3, bsInt, h1, h2, h3, h4, h5, h6, hshape⟩ :=
        decryptStep_success_inv m indir store hashF hl v acc acc₁ p.1 hstep
      have hep : entry = p.2 := by
        have hl2 := hlk p (List.mem_cons_self p ps)
        rw [h1] at hl2
        injection hl2
      obtain ⟨bs, hread, hout⟩ := ih acc₁ acc'
        (fun q hq => hlk q (List.mem_cons_of_mem p hq)) hfold
      have hfrag : readFragOf indir store p = some blk := by
        unfold readFragOf
        rw [← hep, h2]
        exact h3
      refine ⟨blk :: bs, ?_, ?_⟩
      · unfold readFragsOf
        rw [hfrag, hread]
        rfl
      · rw [hout, hshape]
        simp [List.append_assoc]

/-- C6: For every decode of a parsed key file, the output file is written as
the concatenation of fragment contents taken in ascending sequence-number
order (`specSortedConcat`), regardless of the order in which the body lines
appear in the key file: a key file whose body lines are any permutation of
the first one's parses to a manifest on which `_decrypt1` behaves
identically, so the sort over sequence numbers — not the body-line order —
is authoritative.  (Stated under distinct sequence numbers; with duplicates
the later line overwrites the earlier in the manifest dictionary.) -/
theorem claim_C6 (lines₁ lines₂ : List Str) (store : Store) (inputdir : Str)
    (hashF : Bytes → Str) (hashlength verbose : Int)
    (m₁ m₂ es : List (Int × List Str)) (r : DecRun)
    (hparse : parseCodeLines ((codeLinesOf lines₁).map parseFields) = some es)
    (hnodup : (es.map Prod.fst).Nodup)
    (hm₁ : readKeyCode lines₁ = some m₁)
    (hm₂ : readKeyCode lines₂ = some m₂)
    (hperm : List.Perm (codeLinesOf lines₂) (codeLinesOf lines₁))
    (hdec : decrypt1 m₁ inputdir store hashF hashlength verbose = some r) :
    specSortedConcat inputdir store es = some r.output ∧
      decrypt1 m₂ inputdir store hashF hashlength verbose = some r := by
  have hfold₁ := readKeyCode_inv lines₁ m₁ hm₁
  have hfold₂ := readKeyCode_inv lines₂ m₂ hm₂
  have hm₁es : m₁ = es := by
    have h2 := fold_readCode_append ((codeLinesOf lines₁).map parseFields) es []
      hparse (by simpa using hnodup)
    rw [hfold₁] at h2
    injection h2 with h2
  obtain ⟨es₂, hparse₂⟩ :=
    parse_of_readCode ((codeLinesOf lines₂).map parseFields) [] m₂ hfold₂
  have hxs : List.Perm ((codeLinesOf lines₂).map parseFields)
      ((codeLinesOf lines₁).map parseFields) := hperm.map parseFields
  have hpes : List.Perm es₂ es := by
    rw [parseCodeLines_eq_map _ _ hparse₂, parseCodeLines_eq_map _ _ hparse]
    exact hxs.map _
  have hnodup₂ : (es₂.map Prod.fst).Nodup :=
    ((hpes.map Prod.fst).nodup_iff).mpr hnodup
  have hm₂es : m₂ = es₂ := by
    have h2 := fold_readCode_append ((codeLinesOf lines₂).map parseFields) es₂ []
      hparse₂ (by simpa using hnodup₂)
    rw [hfold₂] at h2
    injection h2 with h2
  have hmm : List.Perm m₂ m₁ := by
    rw [hm₁es, hm₂es]
    exact hpes
  have hkeys : List.insertionSort (· ≤ ·) (m₂.map Prod.fst) =
      List.insertionSort (· ≤ ·) (m₁.map Prod.fst) := by
    have hp : List.Perm (List.insertionSort (· ≤ ·) (m₂.map Prod.fst))
        (List.insertionSort (· ≤ ·) (m₁.map Prod.fst)) :=
      (List.perm_insertionSort _ _).trans
        ((hmm.map Prod.fst).trans (List.perm_insertionSort _ _).symm)
    exact List.eq_of_perm_of_sorted hp (List.sorted_insertionSort _ _)
      (List.sorted_insertionSort _ _)
  have hlookeq : ∀ k, lookupCode m₂ k = lookupCode m₁ k :=
    lookupCode_eq_of_perm hmm (by rw [hm₂es]; exact hnodup₂)
  constructor
  · unfold decrypt1 at hdec
    cases hfold : (List.insertionSort (· ≤ ·) (m₁.map Prod.fst)).foldlM
        (decryptStep m₁ inputdir store hashF hashlength verbose)
        { output := [], audit := [], expected := 0, actual := 0 } with
    | none => rw [hfold] at hdec; cases hdec
    | some acc =>
      rw [hfold] at hdec
      have hrout : r.output = acc.output := by
        injection hdec with h
        rw [← h]
      have hkeyseq : List.insertionSort (· ≤ ·) (m₁.map Prod.fst) =
          (sortBySeq es).map Prod.fst := by
        rw [hm₁es, sortBySeq_map_fst]
      rw [hkeyseq] at hfold
      have hlkall : ∀ p ∈ sortBySeq es, lookupCode m₁ p.1 = some p.2 := by
        intro p hp
        have hpe : p ∈ es :=
          (List.perm_insertionSort (fun a b : Int × List Str => a.1 ≤ b.1)
            es).subset hp
        rw [hm₁es]
        exact lookupCode_self_of_nodup es hnodup p hpe
      obtain ⟨bs, hread, hout⟩ := fold_success_reads m₁ inputdir store hashF
        hashlength verbose (sortBySeq es) _ acc hlkall hfold
      unfold specSortedConcat
      rw [hread]
      simp only [Option.map_some']
      rw [hrout, hout]
      rfl
  · rw [decrypt1_keys_congr m₂ m₁ inputdir store hashF hashlength verbose
      hkeys hlookeq]
    exact hdec

def LN6A : List Str :=
  ["AA>>1>>1>>x>>B.jig>>h".data, "AA>>0>>3>>x>>A.jig>>g".data]

def LN6B : List Str :=
  ["AA>>0>>3>>x>>A.jig>>g".data, "AA>>1>>1>>x>>B.jig>>h".data]

def ST6 : Store := [("d/A.jig".data, [1, 2, 3]), ("d/B.jig".data, [4])]

def ES6 : List (Int × List Str) :=
  [(1, ["1".data, "x".data, "B.jig".data, "h".data]),
    (0, ["3".data, "x".data, "A.jig".data, "g".data])]

def M6B : List (Int × List Str) :=
  [(0, ["3".data, "x".data, "A.jig".data, "g".data]),
    (1, ["1".data, "x".data, "B.jig".data, "h".data])]

def R6 : DecRun :=
  { output := [1, 2, 3, 4]
    audit := ["2 Jigsaw files processed ".data,
      "Expected number of bytes: 4 ".data, "Actual number of bytes  : 4 ".data]
    expected := 4
    actual := 4 }

theorem claim_C6_witness :
    specSortedConcat "d".data ST6 ES6 = some R6.output ∧
      decrypt1 M6B "d".data ST6 hashW 1 0 = some R6 :=
  claim_C6 LN6A LN6B ST6 "d".data hashW 1 0 ES6 M6B ES6 R6 (by decide)
    (by decide) (by decide) (by decide) (by decide) (by decide)

/-! ## Claim C9: a truncated-digest mismatch is recorded in the audit but
never aborts reconstruction -/

/-- The decode accumulator without its audit lines: the parts that determine
the reconstructed file and the byte accounting. -/
def DecRun.core (a : DecRun) : Bytes × Int × Nat := (a.output, a.expected, a.actual)

lemma decryptStep_hash_core (m : List (Int × List Str)) (indir : Str)
    (store : Store) (h₁ h₂ : Bytes → Str) (hl v₁ v₂ : Int)
    (acc₁ acc₂ : DecRun) (b : Int) (hc : acc₁.core = acc₂.core) :
    (decryptStep m indir store h₁ hl v₁ acc₁ b).map DecRun.core =
      (decryptStep m indir store h₂ hl v₂ acc₂ b).map DecRun.core := by
  have ho : acc₁.output = acc₂.output := congrArg Prod.fst hc
  have he : acc₁.expected = acc₂.expected := congrArg (fun p => p.2.1) hc
  have ha : acc₁.actual = acc₂.actual := congrArg (fun p => p.2.2) hc
  unfold decryptStep
  cases lookupCode m b with
  | none => rfl
  | some entry =>
    dsimp only
    cases entry.get? 2 with
    | none => rfl
    | some fn =>
      dsimp only
      cases readStore store (pathJoin indir fn) with
      | none => rfl
      | some blk =>
        dsimp only
        cases entry.get? 0 with
        | none => rfl
        | some bsStr =>
          dsimp only
          cases entry.get? 3 with
          | none => rfl
          | some e3 =>
            dsimp only
            cases pyInt bsStr with
            | none => rfl
            | some bsInt =>
              simp only [Option.map_some']
              unfold DecRun.core
              simp only
              rw [ho, he, ha]

lemma fold_hash_core (m : List (Int × List Str)) (indir : Str) (store : Store)
    (h₁ h₂ : Bytes → Str) (hl v₁ v₂ : Int) :
    ∀ (ks : List Int) (acc₁ acc₂ : DecRun), acc₁.core = acc₂.core →
      (ks.foldlM (decryptStep m indir store h₁ hl v₁) acc₁).map DecRun.core =
        (ks.foldlM (decryptStep m indir store h₂ hl v₂) acc₂).map DecRun.core := by
  intro ks
  induction ks with
  | nil =>
    intro acc₁ acc₂ hc
    show (some acc₁).map DecRun.core = (some acc₂).map DecRun.core
    simp only [Option.map_some']
    rw [hc]
  | cons b ks ih =>
    intro acc₁ acc₂ hc
    simp only [List.foldlM_cons]
    have hstep := decryptStep_hash_core m indir store h₁ h₂ hl v₁ v₂ acc₁ acc₂ b hc
    cases hs₁ : decryptStep m indir store h₁ hl v₁ acc₁ b with
    | none =>
      rw [hs₁] at hstep
      cases hs₂ : decryptStep m indir store h₂ hl v₂ acc₂ b with
      | none => simp
      | some a₂ =>
        rw [hs₂] at hstep
        simp at hstep
    | some a₁ =>
      rw [hs₁] at hstep
      cases hs₂ : decryptStep m indir store h₂ hl v₂ acc₂ b with
      | none =>
        rw [hs₂] at hstep
        simp at hstep
      | some a₂ =>
        rw [hs₂] at hstep
        simp only [Option.map_some'] at hstep
        injection hstep with hstep
        simp only [Option.bind_eq_bind, Option.some_bind]
        exact ih a₁ a₂ hstep

lemma decrypt1_hash_core (m : List (Int × List Str)) (indir : Str)
    (store : Store) (h₁ h₂ : Bytes → Str) (hl v₁ v₂ : Int) :
    (decrypt1 m indir store h₁ hl v₁).map DecRun.core =
      (decrypt1 m indir store h₂ hl v₂).map DecRun.core := by
  unfold decrypt1
  have h := fold_hash_core m indir store h₁ h₂ hl v₁ v₂
    (List.insertionSort (· ≤ ·) (m.map Prod.fst))
    { output := [], audit := [], expected := 0, actual := 0 }
    { output := [], audit := [], expected := 0, actual := 0 } rfl
  cases hf₁ : (List.insertionSort (· ≤ ·) (m.map Prod.fst)).foldlM
      (decryptStep m indir store h₁ hl v₁)
      { output := [], audit := [], expected := 0, actual := 0 } with
  | none =>
    rw [hf₁] at h
    cases hf₂ : (List.insertionSort (· ≤ ·) (m.map Prod.fst)).foldlM
        (decryptStep m indir store h₂ hl v₂)
        { output := [], audit := [], expected := 0, actual := 0 } with
    | none => rfl
    | some a₂ =>
      rw [hf₂] at h
      simp at h
  | some a₁ =>
    rw [hf₁] at h
    cases hf₂ : (List.insertionSort (· ≤ ·) (m.map Prod.fst)).foldlM
        (decryptStep m indir store h₂ hl v₂)
        { output := [], audit := [], expected := 0, actual := 0 } with
    | none =>
      rw [hf₂] at h
      simp at h
    | some a₂ =>
      rw [hf₂] at h
      simp only [Option.map_some'] at h
      injection h with h
      exact congrArg some h

lemma compareHashLines_isSome (w₁ w₂ : Bytes → List Str)
    (keyhead : List (Str × Str)) (o₁ o₂ : Bytes) :
    (compareHashLines w₁ keyhead o₁).isSome =
      (compareHashLines w₂ keyhead o₂).isSome := by
  unfold compareHashLines
  cases lookupStr keyhead "md5".data <;>
    cases lookupStr keyhead "sha1".data <;>
    cases lookupStr keyhead "sha224".data <;>
    cases lookupStr keyhead "sha256".data <;>
    cases lookupStr keyhead "sha384".data <;>
    cases lookupStr keyhead "sha512".data <;> rfl

lemma decryptModel_hash_output (w₁ w₂ : Bytes → List Str) (h₁ h₂ : Bytes → Str)
    (lines : List Str) (store : Store) (indir : Str) (v : Int) :
    (decryptModel w₁ h₁ lines store indir v).map DecResult.output =
      (decryptModel w₂ h₂ lines store indir v).map DecResult.output := by
  unfold decryptModel
  cases readKeyHead lines with
  | none => rfl
  | some keyhead =>
    dsimp only
    cases lookupStr keyhead "hashlength".data with
    | none => rfl
    | some hlStr =>
      dsimp only
      cases pyInt hlStr with
      | none => rfl
      | some hl =>
        dsimp only
        cases readKeyCode lines with
        | none => rfl
        | some m =>
          dsimp only
          by_cases hv : lookupStr keyhead "version".data = some "JigsawFileONE".data
          · rw [if_pos hv, if_pos hv]
            have hcore := decrypt1_hash_core m indir store h₁ h₂ hl v v
            cases hd₁ : decrypt1 m indir store h₁ hl v with
            | none =>
              rw [hd₁] at hcore
              cases hd₂ : decrypt1 m indir store h₂ hl v with
              | none => rfl
              | some a₂ =>
                rw [hd₂] at hcore
                simp at hcore
            | some a₁ =>
              rw [hd₁] at hcore
              cases hd₂ : decrypt1 m indir store h₂ hl v with
              | none =>
                rw [hd₂] at hcore
                simp at hcore
              | some a₂ =>
                rw [hd₂] at hcore
                simp only [Option.map_some'] at hcore
                injection hcore with hcore
                have hout : a₁.output = a₂.output := congrArg Prod.fst hcore
                dsimp only
                have hch := compareHashLines_isSome w₁ w₂ keyhead a₁.output a₂.output
                cases hc₁ : compareHashLines w₁ keyhead a₁.output with
                | none =>
                  cases hc₂ : compareHashLines w₂ keyhead a₂.output with
                  | none => rfl
                  | some l₂ =>
                    rw [hc₁, hc₂] at hch
                    simp at hch
                | some l₁ =>
                  cases hc₂ : compareHashLines w₂ keyhead a₂.output with
                  | none =>
                    rw [hc₁, hc₂] at hch
                    simp at hch
                  | some l₂ =>
                    dsimp only
                    simp only [Option.map_some']
                    rw [hout]
          · rw [if_neg hv, if_neg hv]

lemma decryptVerbosity_append (v : Int) (hv : v = 1 ∨ v = 2) (a : List Str)
    (d : Str) : decryptVerbosity v a d = a ++ [d] := by
  unfold decryptVerbosity
  rcases hv with hv | hv
  · rw [if_pos hv]
  · subst hv
    norm_num

lemma fold_audit_mem (m : List (Int × List Str)) (indir : Str) (store : Store)
    (hashF : Bytes → Str) (hl v : Int) (hv : v = 1 ∨ v = 2) :
    ∀ (ks : List Int) (acc acc' : DecRun),
      ks.foldlM (decryptStep m indir store hashF hl v) acc = some acc' →
      (∃ suf, acc'.audit = acc.audit ++ suf) ∧
        ∀ b ∈ ks, ∃ entry fn blk bsStr e3,
          lookupCode m b = some entry ∧ entry.get? 2 = some fn ∧
          entry.get? 0 = some bsStr ∧ entry.get? 3 = some e3 ∧
          readStore store (pathJoin indir fn) = some blk ∧
          joinDelim [intStr b, pathJoin indir fn, bsStr, natDigits blk.length,
            e3, pySliceTo (hashF blk) hl] ∈ acc'.audit := by
  intro ks
  induction ks with
  | nil =>
    intro acc acc' hfold
    simp only [List.foldlM_nil] at hfold
    injection hfold with h
    refine ⟨⟨[], by rw [← h]; simp⟩, ?_⟩
    intro b hb
    simp at hb
  | cons b ks ih =>
    intro acc acc' hfold
    simp only [List.foldlM_cons] at hfold
    cases hstep : decryptStep m indir store hashF hl v acc b with
    | none =>
      rw [hstep] at hfold
      simp at hfold
    | some acc₁ =>
      rw [hstep] at hfold
      simp only [Option.bind_eq_bind, Option.some_bind] at hfold
      obtain ⟨hpre, hall⟩ := ih acc₁ acc' hfold
      obtain ⟨entry, fn, blk, bsStr, e3, bsInt, h1, h2, h3, h4, h5, h6, hshape⟩ :=
        decryptStep_success_inv m indir store hashF hl v acc acc₁ b hstep
      have haud₁ : acc₁.audit = acc.audit ++
          [joinDelim [intStr b, pathJoin indir fn, bsStr, natDigits blk.length,
            e3, pySliceTo (hashF blk) hl]] := by
        rw [hshape]
        exact decryptVerbosity_append v hv _ _
      obtain ⟨suf, hsuf⟩ := hpre
      constructor
      · refine ⟨[joinDelim [intStr b, pathJoin indir fn, bsStr,
          natDigits blk.length, e3, pySliceTo (hashF blk) hl]] ++ suf, ?_⟩
        rw [hsuf, haud₁, List.append_assoc]
      · intro b' hb'
        rcases List.mem_cons.mp hb' with hb' | hb'
        · subst hb'
          refine ⟨entry, fn, blk, bsStr, e3, h1, h2, h4, h5, h3, ?_⟩
          rw [hsuf, haud₁]
          simp
        · obtain ⟨entry', fn', blk', bsStr', e3', hh⟩ := hall b' hb'
          exact ⟨entry', fn', blk', bsStr', e3', hh⟩

/-- C9: A mismatch between a fragment's truncated digest recorded in the key
file and the digest recomputed from the fragment's bytes never aborts
reconstruction.  The digests are compared only by being written side by side
into the audit line: replacing the hash function (so every recomputed digest
changes, in particular at any corrupted fragment) leaves `_decrypt1`'s
success, reconstructed bytes and byte accounting unchanged, leaves the
decoded output and exit behaviour of a whole `decrypt` run (any `whole`-file
digests included) unchanged, and at verbosity 1 every fragment's audit line
carries both the recorded digest field and the recomputed truncated
digest. -/
theorem claim_C9 (m : List (Int × List Str)) (inputdir : Str) (store : Store)
    (h₁ h₂ : Bytes → Str) (w₁ w₂ : Bytes → List Str) (lines : List Str)
    (hashlength verbose : Int) (r : DecRun)
    (hdec : decrypt1 m inputdir store h₁ hashlength 1 = some r) :
    ((decrypt1 m inputdir store h₂ hashlength verbose).map DecRun.core =
        (decrypt1 m inputdir store h₁ hashlength verbose).map DecRun.core) ∧
      ((decryptModel w₂ h₂ lines store inputdir verbose).map DecResult.output =
        (decryptModel w₁ h₁ lines store inputdir verbose).map DecResult.output) ∧
      ∀ b ∈ List.insertionSort (· ≤ ·) (m.map Prod.fst),
        ∃ entry fn blk bsStr e3,
          lookupCode m b = some entry ∧ entry.get? 2 = some fn ∧
          entry.get? 0 = some bsStr ∧ entry.get? 3 = some e3 ∧
          readStore store (pathJoin inputdir fn) = some blk ∧
          joinDelim [intStr b, pathJoin inputdir fn, bsStr,
            natDigits blk.length, e3, pySliceTo (h₁ blk) hashlength] ∈
            r.audit := by
  refine ⟨decrypt1_hash_core m inputdir store h₂ h₁ hashlength verbose verbose,
    decryptModel_hash_output w₂ w₁ h₂ h₁ lines store inputdir verbose, ?_⟩
  unfold decrypt1 at hdec
  cases hfold : (List.insertionSort (· ≤ ·) (m.map Prod.fst)).foldlM
      (decryptStep m inputdir store h₁ hashlength 1)
      { output := [], audit := [], expected := 0, actual := 0 } with
  | none =>
    rw [hfold] at hdec
    cases hdec
  | some acc =>
    rw [hfold] at hdec
    obtain ⟨_, hall⟩ := fold_audit_mem m inputdir store h₁ hashlength 1
      (Or.inl rfl) (List.insertionSort (· ≤ ·) (m.map Prod.fst)) _ acc hfold
    intro b hb
    obtain ⟨entry, fn, blk, bsStr, e3, hh1, hh2, hh3, hh4, hh5, hh6⟩ := hall b hb
    refine ⟨entry, fn, blk, bsStr, e3, hh1, hh2, hh3, hh4, hh5, ?_⟩
    obtain ⟨tail, hr⟩ : ∃ tail, r.audit = acc.audit ++ tail := by
      injection hdec with h
      exact ⟨_, by rw [← h]⟩
    rw [hr]
    exact List.mem_append_left _ hh6

def hashW2 : Bytes → Str := fun _ => "q".data

def M9 : List (Int × List Str) :=
  [(0, ["1".data, "x".data, "A.jig".data, "zz".data])]

def ST9 : Store := [("d/A.jig".data, [7])]

def R9 : DecRun :=
  { output := [7]
    audit := ["0>>d/A.jig>>1>>1>>zz>>h".data,
      "1 Jigsaw files processed ".data,
      "Expected number of bytes: 1 ".data, "Actual number of bytes  : 1 ".data]
    expected := 1
    actual := 1 }

theorem claim_C9_witness :
    decrypt1 M9 "d".data ST9 hashW 2 1 = some R9 ∧
      (((decrypt1 M9 "d".data ST9 hashW2 2 0).map DecRun.core =
          (decrypt1 M9 "d".data ST9 hashW 2 0).map DecRun.core) ∧
        ((decryptModel wholeW hashW2 [] ST9 "d".data 0).map DecResult.output =
          (decryptModel wholeW hashW [] ST9 "d".data 0).map DecResult.output) ∧
        ∀ b ∈ List.insertionSort (· ≤ ·) (M9.map Prod.fst),
          ∃ entry fn blk bsStr e3,
            lookupCode M9 b = some entry ∧ entry.get? 2 = some fn ∧
            entry.get? 0 = some bsStr ∧ entry.get? 3 = some e3 ∧
            readStore ST9 (pathJoin "d".data fn) = some blk ∧
            joinDelim [intStr b, pathJoin "d".data fn, bsStr,
              natDigits blk.length, e3, pySliceTo (hashW blk) 2] ∈
              R9.audit) :=
  ⟨by decide, claim_C9 M9 "d".data ST9 hashW hashW2 wholeW wholeW [] 2 0 R9
    (by decide)⟩
